import Mathlib

/-!
Verification of the day-17 constrained shortest-path solver
(`src/bin/day17.rs`) of this repository.

The Rust source is shallowly embedded below: every definition mirrors one
item of the source file (named after it where Lean allows).  Machine
integers (`usize`, `u8`) are modelled as `Nat`; the subtractions performed
by the source are guarded there, and the guards are reproduced here, so
truncated `Nat` subtraction agrees with the machine behaviour at every
use site exercised by the theorems.  `std::collections::BinaryHeap` is
modelled by its backing array (a `List Node`) together with the exact
`sift_up` / `sift_down_to_bottom` / `sift_down_range` / `rebuild`
algorithms of the Rust standard library, so that pop order — including
tie-breaking — is reproduced faithfully.  `BTreeMap` is modelled as an
association list with first-match lookup and replace-first insertion;
`BTreeMap` keyed by `Node` identifies keys whose `Ord::cmp` returns
`Equal`, which for the source's `Node` ordering means equality of the
triple `(est_cost, pos, moves_left)` (see `nodeCmp` below), so those maps
are keyed by that triple here.  The main search loop, which the source
runs until the frontier is exhausted, is given an explicit fuel
parameter; exhausted fuel is reported as a distinct outcome.  Panics
(`unwrap` on `None`, `todo!`) are modelled as distinct outcomes as well.

Loop bodies that Rust writes with in-place iteration are written as
structural recursions over an explicit bound (for the sift loops the
bound is exact: `sift_up` moves the hole strictly down toward the root
and `sift_down` strictly up toward `end`, so the supplied fuel can never
be exhausted before the loop's own exit condition fires).
-/

/-- `enum Direction { Up, Down, Left, Right }` (day17.rs). -/
inductive Direction where
  | Up : Direction
  | Down : Direction
  | Left : Direction
  | Right : Direction
deriving DecidableEq, Repr

/-- Rank of a `Direction` in its derived Rust `Ord` (declaration order). -/
def dirRank : Direction → Nat
  | .Up => 0
  | .Down => 1
  | .Left => 2
  | .Right => 3

/-- The derived `Ord` on `Direction` compares declaration order. -/
def compareDir (a b : Direction) : Ordering := compare (dirRank a) (dirRank b)

/-- The inverse heading (`Up↔Down`, `Left↔Right`); used only to state
properties about backtracking, the source never computes it. -/
def dirInverse : Direction → Direction
  | .Up => .Down
  | .Down => .Up
  | .Left => .Right
  | .Right => .Left

/-- `type Row = usize; type Col = usize;` — a grid position `(row, col)`. -/
abbrev Pos := Nat × Nat

/-- `usize::abs_diff`. -/
def absDiff (a b : Nat) : Nat := (a - b) + (b - a)

/-- `const MAX_SAME_DIRS: usize = 3;` -/
def MAX_SAME_DIRS : Nat := 3

/-- `struct Node { pos, last_dir, moves_left, est_cost }` (day17.rs). -/
structure Node where
  pos : Pos
  last_dir : Direction
  moves_left : Nat
  est_cost : Nat
deriving DecidableEq, Repr

/-- `impl PartialEq for Node`: compares `pos`, `last_dir`, `moves_left`
and deliberately ignores `est_cost` (source comment: "no est cost"). -/
def nodeEqB (a b : Node) : Bool :=
  a.pos == b.pos && a.last_dir == b.last_dir && a.moves_left == b.moves_left

/-- `Node::is_matching`: same comparison as `PartialEq` (pos, last_dir,
moves_left; `est_cost` ignored). -/
def isMatching (a neighbor_node : Node) : Bool :=
  a.pos == neighbor_node.pos && a.last_dir == neighbor_node.last_dir
    && a.moves_left == neighbor_node.moves_left

/-- `impl Ord for Node`, transcribed literally:
```
let a = (self.est_cost, self.pos, self.moves_left, self.last_dir);
let b = (other.est_cost, other.pos, other.moves_left, self.last_dir);
b.cmp(&a)
```
Note the second tuple reuses `self.last_dir`, so the direction component
always compares equal; the result is the reversed lexicographic
comparison of `(est_cost, pos, moves_left)`. -/
def nodeCmp (a b : Node) : Ordering :=
  ((compare b.est_cost a.est_cost).then
    ((compare b.pos.1 a.pos.1).then
      ((compare b.pos.2 a.pos.2).then
        ((compare b.moves_left a.moves_left).then
          (compareDir a.last_dir a.last_dir)))))

/-- Rust `x <= y` via `Ord`: `cmp(x, y) != Greater`. -/
def nodeLe (a b : Node) : Bool :=
  match nodeCmp a b with
  | .gt => false
  | _ => true

/-- Rust `x >= y` via `Ord`: `cmp(x, y) != Less`. -/
def nodeGe (a b : Node) : Bool :=
  match nodeCmp a b with
  | .lt => false
  | _ => true

/-- Rust `x < y` via `Ord`: `cmp(x, y) == Less`. -/
def nodeLt (a b : Node) : Bool :=
  match nodeCmp a b with
  | .lt => true
  | _ => false

/-- The key under which a `Node` is stored in a `BTreeMap<Node, _>`:
keys whose `Node::cmp` is `Equal` coincide, and by `nodeCmp` that is
exactly equality of `(est_cost, pos, moves_left)` — `last_dir` is
ignored by the comparison. -/
abbrev CKey := Nat × Pos × Nat

/-- The `BTreeMap` key of a node (see `CKey`). -/
def ckey (n : Node) : CKey := (n.est_cost, n.pos, n.moves_left)

/-- `struct Puzzle { num_cols, num_rows, nodes }`; `nodes` is the flat
byte array of the input with newlines removed. -/
structure Puzzle where
  num_cols : Nat
  num_rows : Nat
  nodes : List Nat
deriving DecidableEq, Repr

/-- Split a character list at `'\n'`, keeping empty segments (the
segment after a trailing `'\n'` included). -/
def splitNl : List Char → List (List Char)
  | [] => [[]]
  | c :: rest =>
    let r := splitNl rest
    if c = '\n' then [] :: r
    else
      match r with
      | [] => [[c]]
      | h :: t => (c :: h) :: t

/-- Rust `str::lines` (for inputs without `'\r'`): the `'\n'`-separated
segments, without a final empty segment after a trailing newline. -/
def rustLines (s : String) : List (List Char) :=
  let ps := splitNl s.data
  match ps.getLast? with
  | some [] => ps.dropLast
  | _ => ps

/-- `impl FromStr for Puzzle` (day17.rs): `num_cols` is the length of the
first line (0 if there is none), `num_rows` the number of lines, `nodes`
every byte of the input except `b'\n'`.  The source always returns
`Ok`. -/
def puzzleFromStr (s : String) : Except String Puzzle :=
  let lines := rustLines s
  let num_cols := (lines.head?.map List.length).getD 0
  let num_rows := lines.length
  let nodes := (s.data.filter (fun ch => ch ≠ '\n')).map Char.toNat
  .ok { num_cols := num_cols, num_rows := num_rows, nodes := nodes }

/-- `Bool`-valued success test for `Except`. -/
def exceptIsOk : Except String Puzzle → Bool
  | .ok _ => true
  | .error _ => false

/-- `impl Index<(usize, usize)> for Puzzle`: `nodes[r * num_cols + c]`
(out-of-range access, which panics in Rust, is totalised to 0; every
access performed by the theorems below is in range). -/
def puzzleIx (p : Puzzle) (pos : Pos) : Nat :=
  p.nodes.getD (pos.1 * p.num_cols + pos.2) 0

/-- `Puzzle::neighbor`: the in-grid neighbours of a cell with the
direction that leads to each, pushed in the order Up, Down, Left,
Right. -/
def neighbor (p : Puzzle) (pos : Pos) : List (Direction × Pos) :=
  let row := pos.1
  let col := pos.2
  (if 0 < row then [(Direction.Up, (row - 1, col))] else []) ++
  (if row + 1 < p.num_rows then [(Direction.Down, (row + 1, col))] else []) ++
  (if 0 < col then [(Direction.Left, (row, col - 1))] else []) ++
  (if col + 1 < p.num_cols then [(Direction.Right, (row, col + 1))] else [])

/-- The Manhattan-distance heuristic `h` of `a_star`. -/
def hman (goal pos : Pos) : Nat := absDiff pos.1 goal.1 + absDiff pos.2 goal.2

/-- First-match lookup in an association list (model of `BTreeMap::get`). -/
def mlookup {α : Type} : List (CKey × α) → CKey → Option α
  | [], _ => none
  | (k', v') :: rest, k => if k' = k then some v' else mlookup rest k

/-- Replace-first insertion in an association list (model of
`BTreeMap::insert`). -/
def minsert {α : Type} : List (CKey × α) → CKey → α → List (CKey × α)
  | [], k, v => [(k, v)]
  | (k', v') :: rest, k, v =>
    if k' = k then (k, v) :: rest else (k', v') :: minsert rest k v

/-- The source's
`costs.entry(node).and_modify(|prev| if tent < *prev {..}).or_insert_with(..)`:
returns the updated map and whether `cost_updated` was set. -/
def costsUpdate (m : List (CKey × Nat)) (k : CKey) (tent : Nat) :
    List (CKey × Nat) × Bool :=
  match mlookup m k with
  | some prev => if tent < prev then (minsert m k tent, true) else (m, false)
  | none => (minsert m k tent, true)

/-- Placeholder element for (never exercised) out-of-range list reads in
the heap routines. -/
def dummyNode : Node :=
  { pos := (0, 0), last_dir := .Up, moves_left := 0, est_cost := 0 }

/-- Read slot `i` of the heap's backing array. -/
def getN (d : List Node) (i : Nat) : Node := d.getD i dummyNode

/-- The loop of Rust `BinaryHeap::sift_up` (hole at `pos`, carrying
`item`): while `pos > start`, stop if `item <= d[parent]`, else move the
parent down into the hole and continue from `parent`.  The fuel is an
upper bound on the number of iterations; `fuel = pos + 1` is always
enough because the hole index strictly decreases. -/
def siftUpLoop (start : Nat) (item : Node) : Nat → List Node → Nat → List Node
  | 0, d, pos => d.set pos item
  | f + 1, d, pos =>
    if start < pos then
      let parent := (pos - 1) / 2
      let pv := getN d parent
      if nodeLe item pv then d.set pos item
      else siftUpLoop start item f (d.set pos pv) parent
    else d.set pos item

/-- Rust `BinaryHeap::sift_up(start, pos)` (array part of the result). -/
def siftUp (d : List Node) (start pos : Nat) : List Node :=
  siftUpLoop start (getN d pos) (pos + 1) d pos

/-- Rust `BinaryHeap::push`: append, then sift up from the new slot. -/
def heapPush (d : List Node) (item : Node) : List Node :=
  siftUp (d ++ [item]) 0 d.length

/-- The descent loop of Rust `BinaryHeap::sift_down_to_bottom`: walk the
hole to the bottom of the subtree, always toward the greater child, then
sift the carried item back up.  `fuel = end_` bounds the descent. -/
def siftDownBtmLoop (start end_ : Nat) (item : Node) :
    Nat → List Node → Nat → List Node
  | 0, d, pos => siftUpLoop start item (pos + 1) d pos
  | f + 1, d, pos =>
    let child := 2 * pos + 1
    if child + 2 ≤ end_ then
      let child := if nodeLe (getN d child) (getN d (child + 1)) then child + 1 else child
      siftDownBtmLoop start end_ item f (d.set pos (getN d child)) child
    else
      if child + 1 = end_ then
        siftUpLoop start item (child + 1) (d.set pos (getN d child)) child
      else
        siftUpLoop start item (pos + 1) d pos

/-- Rust `BinaryHeap::sift_down_to_bottom(pos)` over the whole array. -/
def siftDownToBottom (d : List Node) (pos : Nat) : List Node :=
  siftDownBtmLoop pos d.length (getN d pos) d.length d pos

/-- Rust `BinaryHeap::pop`: remove the last element; if the heap is
still nonempty, swap it with the root and sift the new root down with
`sift_down_to_bottom`; the old root is returned. -/
def heapPop (d : List Node) : Option (Node × List Node) :=
  match d with
  | [] => none
  | _ :: _ =>
    let item := d.getLastD dummyNode
    let rest := d.dropLast
    match rest with
    | [] => some (item, [])
    | _ :: _ => some (getN d 0, siftDownBtmLoop 0 rest.length item rest.length (rest.set 0 item) 0)

/-- The loop of Rust `BinaryHeap::sift_down_range` (classic sift-down,
used by `rebuild`): stop as soon as the item is `>=` the greater child.
`fuel = end_` bounds the descent. -/
def siftDownRangeLoop (end_ : Nat) (item : Node) :
    Nat → List Node → Nat → List Node
  | 0, d, pos => d.set pos item
  | f + 1, d, pos =>
    let child := 2 * pos + 1
    if child + 2 ≤ end_ then
      let child := if nodeLe (getN d child) (getN d (child + 1)) then child + 1 else child
      if nodeGe item (getN d child) then d.set pos item
      else siftDownRangeLoop end_ item f (d.set pos (getN d child)) child
    else
      if child + 1 = end_ then
        if nodeLt item (getN d child) then (d.set pos (getN d child)).set child item
        else d.set pos item
      else d.set pos item

/-- Rust `BinaryHeap::rebuild`: `n = len / 2; while n > 0 { n -= 1;
sift_down(n) }` — heapify after bulk construction (`collect`). -/
def rebuildLoop (d : List Node) : Nat → List Node
  | 0 => d
  | n + 1 => rebuildLoop (siftDownRangeLoop d.length (getN d n) d.length d n) n

/-- `BinaryHeap::from(vec)` / `.collect()`: heapify the backing array. -/
def heapRebuild (d : List Node) : List Node := rebuildLoop d (d.length / 2)

/-- The mutable state of one `Puzzle::a_star` invocation: the frontier's
backing array (`open_set`), the best-cost table (`costs`) and the
predecessor table (`parent`), both keyed as described at `CKey`. -/
structure SearchState where
  open_set : List Node
  costs : List (CKey × Nat)
  parent : List (CKey × Pos)
deriving DecidableEq, Repr

/-- The `is_allowed` closure of `a_star`: reject the neighbour recorded
as the parent of `src`'s key, and reject continuing in the same heading
with no moves left. -/
def is_allowed (par : List (CKey × Pos)) (src : Node) (new_dir : Direction)
    (nb : Pos) : Bool :=
  if mlookup par (ckey src) = some nb then false
  else !(src.last_dir == new_dir && src.moves_left == 0)

/-- The body of the `for (dir, nr, nc) in self.neighbor(..)` loop of
`a_star`, processing one neighbour of the popped node `current`. -/
def expandNeighbor (p : Puzzle) (goal : Pos) (current : Node)
    (st : SearchState) (dn : Direction × Pos) : SearchState :=
  let dir := dn.1
  let n := dn.2
  if is_allowed st.parent current dir n then
    let tenatative := (mlookup st.costs (ckey current)).getD 0 + (puzzleIx p n - 48)
    let neighbor_node : Node :=
      { pos := n
        est_cost := tenatative + hman goal n
        last_dir := dir
        moves_left := if current.last_dir == dir then current.moves_left - 1
                      else 3 }
    let cu := costsUpdate st.costs (ckey neighbor_node) tenatative
    if cu.2 then
      let os :=
        if st.open_set.any (fun x => isMatching x neighbor_node) then
          heapRebuild (st.open_set.map (fun x =>
            if isMatching x neighbor_node then { x with est_cost := neighbor_node.est_cost }
            else x))
        else heapPush st.open_set neighbor_node
      { open_set := os
        costs := cu.1
        parent := minsert st.parent (ckey neighbor_node) current.pos }
    else { st with costs := cu.1 }
  else st

/-- One iteration of the `while let Some(current) = open_set.pop()` loop:
pop the top of the frontier and process its neighbours in order. -/
def stepOnce (p : Puzzle) (goal : Pos) (st : SearchState) :
    Option (Node × SearchState) :=
  match heapPop st.open_set with
  | none => none
  | some (current, rest) =>
    some (current,
      (neighbor p current.pos).foldl (expandNeighbor p goal current)
        { st with open_set := rest })

/-- The start node of `a_star`: position `start`, heading `Right`,
`moves_left = MAX_SAME_DIRS`, `est_cost = h(start)`. -/
def startNode (start goal : Pos) : Node :=
  { pos := start
    est_cost := hman goal start
    last_dir := .Right
    moves_left := MAX_SAME_DIRS }

/-- The state of `a_star` before the first loop iteration: the frontier
holds exactly the start node, `costs` maps it to 0, `parent` is empty. -/
def initState (start goal : Pos) : SearchState :=
  { open_set := heapPush [] (startNode start goal)
    costs := [(ckey (startNode start goal), 0)]
    parent := [] }

/-- Run `k` loop iterations of `a_star` on `p` from the origin;
`none` if the frontier was exhausted in fewer than `k` iterations. -/
def runFrom (p : Puzzle) (goal : Pos) : Nat → SearchState → Option SearchState
  | 0, st => some st
  | k + 1, st =>
    match stepOnce p goal st with
    | none => none
    | some (_, st') => runFrom p goal k st'

/-- The node popped at (0-indexed) iteration `k` of `a_star` on `p` from
the origin, if the loop runs that long. -/
def poppedAt (p : Puzzle) (goal : Pos) (k : Nat) : Option Node :=
  match runFrom p goal k (initState (0, 0) goal) with
  | none => none
  | some st =>
    match heapPop st.open_set with
    | none => none
    | some (current, _) => some current

/-- Whether, at iteration `k` of `a_star` on `p` from the origin, the
popped node's neighbour `(d, nb)` passes `is_allowed` (against the
parent table as it stands at that iteration). -/
def popAllows (p : Puzzle) (goal : Pos) (k : Nat) (d : Direction) (nb : Pos) : Bool :=
  match runFrom p goal k (initState (0, 0) goal) with
  | none => false
  | some st =>
    match heapPop st.open_set with
    | none => false
    | some (current, _) => is_allowed st.parent current d nb

/-- `find_min_node(goal)` restricted to what `a_star` returns: the least
cost recorded in `costs` for any key at the goal position (`None` means
the source's `.unwrap()` panics). -/
def findMinCost (costs : List (CKey × Nat)) (goal : Pos) : Option Nat :=
  costs.foldl (fun acc kv =>
    if kv.1.2.1 = goal then
      match acc with
      | none => some kv.2
      | some v => some (min v kv.2)
    else acc) none

/-- The observable outcome of an `a_star` call under a fuel bound. -/
inductive AStarOutcome where
  | outOfFuel : AStarOutcome
  | panicNoGoal : AStarOutcome
  | ok : Nat → AStarOutcome
  | parseErr : AStarOutcome
deriving DecidableEq, Repr

/-- The `while let Some(current) = open_set.pop()` loop of `a_star`,
bounded by `fuel`: `none` when the fuel runs out before the frontier is
exhausted, otherwise the state after the last iteration. -/
def aStarLoop (p : Puzzle) (goal : Pos) : Nat → SearchState → Option SearchState
  | 0, _ => none
  | fuel + 1, st =>
    match stepOnce p goal st with
    | none => some st
    | some (_, st') => aStarLoop p goal fuel st'

/-- `Puzzle::a_star(start, goal)` with the loop bounded by `fuel`:
`outOfFuel` if the frontier is not exhausted within `fuel` iterations,
`panicNoGoal` if after exhaustion no key at the goal position exists
(the source's `unwrap` panics), otherwise the minimal recorded goal
cost. -/
def a_star (p : Puzzle) (start goal : Pos) (fuel : Nat) : AStarOutcome :=
  match aStarLoop p goal fuel (initState start goal) with
  | none => .outOfFuel
  | some st =>
    match findMinCost st.costs goal with
    | none => .panicNoGoal
    | some c => .ok c

/-- `part_one` (day17.rs): parse, then
`a_star((0, 0), (num_rows - 1, num_cols - 1))`, with the loop bounded by
`fuel`. -/
def part_one (input : String) (fuel : Nat) : AStarOutcome :=
  match puzzleFromStr input with
  | .error _ => .parseErr
  | .ok p => a_star p (0, 0) (p.num_rows - 1, p.num_cols - 1) fuel

/-- `part_two` (day17.rs) is `todo!()`: it unconditionally panics and
never produces a value; the panic is modelled as `none`. -/
def part_two (_input : String) : Option Nat := none

/-- The published 13×13 example grid (`tests::INPUT` in day17.rs and §8
of the spec). -/
def exampleInput : String :=
  "2413432311323\n3215453535623\n3255245654254\n3446585845452\n" ++
  "4546657867536\n1438598798454\n4457876987766\n3637877979653\n" ++
  "4654967986887\n4564679986453\n1224686865563\n2546548887735\n" ++
  "4322674655533"

/-- The parsed puzzle of an input string (`from_str` always succeeds). -/
def puzzleOf (s : String) : Puzzle :=
  match puzzleFromStr s with
  | .ok p => p
  | .error _ => { num_cols := 0, num_rows := 0, nodes := [] }

/-- The example grid, parsed. -/
def examplePuzzle : Puzzle := puzzleOf exampleInput

/-- A same-heading continuation step as the search constructs it: when
`is_allowed` lets a move continue in `src.last_dir`, the guard
`!(last_dir == new_dir && moves_left == 0)` forces `moves_left ≠ 0`, and
`neighbor_node` records `moves_left - 1` for the successor. -/
def sameDirStep (a b : Node) : Prop :=
  b.last_dir = a.last_dir ∧ a.moves_left ≠ 0 ∧ b.moves_left = a.moves_left - 1

instance sameDirStepDecidable (a b : Node) : Decidable (sameDirStep a b) :=
  inferInstanceAs (Decidable
    (b.last_dir = a.last_dir ∧ a.moves_left ≠ 0 ∧ b.moves_left = a.moves_left - 1))

/-- Invariant of every `a_star` search state reachable from
`initState (0, 0) goal`:
* every `costs` entry's value plus the heuristic of its position equals
  its key's `est_cost` component (so a key can never be re-inserted with
  a different value, and `and_modify` never fires);
* every frontier node's key is present in `costs`;
* for every frontier node, the neighbour lying behind it (in the exact
  reverse of its heading) is recorded in `parent` under the node's key —
  which is precisely the neighbour `is_allowed` rejects. -/
def StInv (p : Puzzle) (goal : Pos) (st : SearchState) : Prop :=
  (∀ kv ∈ st.costs, kv.2 + hman goal kv.1.2.1 = kv.1.1) ∧
  (∀ n ∈ st.open_set, (mlookup st.costs (ckey n)).isSome = true) ∧
  (∀ n ∈ st.open_set, ∀ q : Pos,
    (dirInverse n.last_dir, q) ∈ neighbor p n.pos →
    mlookup st.parent (ckey n) = some q)

/-- The 2×2 all-ones grid, the smallest input on which the divergence of
`a_star` (see C1) is exhibited and proved below. -/
def twoPuzzle : Puzzle := puzzleOf "11\n11"

/-- The `costs` table of `a_star` on `twoPuzzle` at the start of lap `k`
of its periodic orbit (loop iteration `3 + 4k`): the four entries of the
opening three iterations, then four fresh keys per lap — fresh because
each key embeds its own `est_cost`, which grows by 4 per lap. -/
def cycCosts : Nat → List (CKey × Nat)
  | 0 => [((2, (0, 0), 3), 0), ((2, (1, 0), 3), 1), ((2, (0, 1), 2), 1),
      ((2, (1, 1), 3), 2)]
  | k + 1 => cycCosts k ++
      [((4 + 4 * k, (1, 0), 3), 3 + 4 * k), ((6 + 4 * k, (0, 0), 3), 4 + 4 * k),
       ((6 + 4 * k, (0, 1), 3), 5 + 4 * k), ((6 + 4 * k, (1, 1), 3), 6 + 4 * k)]

/-- The `parent` table at the start of lap `k` (see `cycCosts`). -/
def cycParent : Nat → List (CKey × Pos)
  | 0 => [((2, (1, 0), 3), (0, 0)), ((2, (0, 1), 2), (0, 0)), ((2, (1, 1), 3), (0, 1))]
  | k + 1 => cycParent k ++
      [((4 + 4 * k, (1, 0), 3), (1, 1)), ((6 + 4 * k, (0, 0), 3), (1, 0)),
       ((6 + 4 * k, (0, 1), 3), (0, 0)), ((6 + 4 * k, (1, 1), 3), (0, 1))]

/-- The search state of `a_star` on `twoPuzzle` at the start of lap `k`
(loop iteration `3 + 4k`): the frontier chases the cycle
`(1,1) → (1,0) → (0,0) → (0,1) → (1,1)` with `est_cost` growing by 4 per
lap, so it is never exhausted. -/
def cycState (k : Nat) : SearchState :=
  { open_set := [{ pos := (1, 1), last_dir := .Down, moves_left := 3, est_cost := 2 + 4 * k }]
    costs := cycCosts k
    parent := cycParent k }

/-- Lap state after the first of the four iterations of lap `k`. -/
def cycM1 (k : Nat) : SearchState :=
  { open_set := [{ pos := (1, 0), last_dir := .Left, moves_left := 3, est_cost := 4 + 4 * k }]
    costs := cycCosts k ++ [((4 + 4 * k, (1, 0), 3), 3 + 4 * k)]
    parent := cycParent k ++ [((4 + 4 * k, (1, 0), 3), (1, 1))] }

/-- Lap state after the second of the four iterations of lap `k`. -/
def cycM2 (k : Nat) : SearchState :=
  { open_set := [{ pos := (0, 0), last_dir := .Up, moves_left := 3, est_cost := 6 + 4 * k }]
    costs := cycCosts k ++ [((4 + 4 * k, (1, 0), 3), 3 + 4 * k),
      ((6 + 4 * k, (0, 0), 3), 4 + 4 * k)]
    parent := cycParent k ++ [((4 + 4 * k, (1, 0), 3), (1, 1)),
      ((6 + 4 * k, (0, 0), 3), (1, 0))] }

/-- Lap state after the third of the four iterations of lap `k`. -/
def cycM3 (k : Nat) : SearchState :=
  { open_set := [{ pos := (0, 1), last_dir := .Right, moves_left := 3, est_cost := 6 + 4 * k }]
    costs := cycCosts k ++ [((4 + 4 * k, (1, 0), 3), 3 + 4 * k),
      ((6 + 4 * k, (0, 0), 3), 4 + 4 * k), ((6 + 4 * k, (0, 1), 3), 5 + 4 * k)]
    parent := cycParent k ++ [((4 + 4 * k, (1, 0), 3), (1, 1)),
      ((6 + 4 * k, (0, 0), 3), (1, 0)), ((6 + 4 * k, (0, 1), 3), (0, 0))] }

/-! ## Helper lemmas -/

theorem then_eq_eq_iff (x y : Ordering) : x.then y = .eq ↔ x = .eq ∧ y = .eq := by
  cases x <;> simp [Ordering.then]

theorem mlookup_mem {α : Type} (m : List (CKey × α)) (k : CKey) (v : α)
    (h : mlookup m k = some v) : (k, v) ∈ m := by
  induction m with
  | nil => simp [mlookup] at h
  | cons kv rest ih =>
    obtain ⟨k', v'⟩ := kv
    rw [mlookup] at h
    split at h
    · rename_i he
      obtain rfl := he
      obtain rfl : v' = v := by simpa using h
      exact List.mem_cons_self _ _
    · exact List.mem_cons_of_mem _ (ih h)

theorem mlookup_minsert_self {α : Type} (m : List (CKey × α)) (k : CKey) (v : α) :
    mlookup (minsert m k v) k = some v := by
  induction m with
  | nil => simp [minsert, mlookup]
  | cons kv rest ih =>
    obtain ⟨k', v'⟩ := kv
    rw [minsert]
    split
    · simp [mlookup]
    · rename_i hne
      rw [mlookup]
      split
      · rename_i he; exact absurd he hne
      · exact ih

theorem mlookup_minsert_ne {α : Type} (m : List (CKey × α)) (k k' : CKey) (v : α)
    (h : k' ≠ k) : mlookup (minsert m k v) k' = mlookup m k' := by
  induction m with
  | nil =>
    simp only [minsert, mlookup]
    rw [if_neg (fun he => h he.symm)]
  | cons kv rest ih =>
    obtain ⟨k0, v0⟩ := kv
    rw [minsert]
    split
    · rename_i he
      obtain rfl := he
      rw [mlookup, mlookup, if_neg (fun he2 => h he2.symm),
        if_neg (fun he2 => h he2.symm)]
    · rw [mlookup, mlookup]
      split
      · rfl
      · exact ih

theorem minsert_mem {α : Type} (m : List (CKey × α)) (k : CKey) (v : α)
    (kv : CKey × α) (h : kv ∈ minsert m k v) : kv = (k, v) ∨ kv ∈ m := by
  induction m with
  | nil => simpa [minsert] using h
  | cons kv0 rest ih =>
    obtain ⟨k0, v0⟩ := kv0
    rw [minsert] at h
    split at h
    · rcases List.mem_cons.1 h with h | h
      · exact .inl h
      · exact .inr (List.mem_cons_of_mem _ h)
    · rcases List.mem_cons.1 h with h | h
      · exact .inr (h ▸ List.mem_cons_self _ _)
      · rcases ih h with h | h
        · exact .inl h
        · exact .inr (List.mem_cons_of_mem _ h)

theorem getN_mem (d : List Node) (i : Nat) (h : i < d.length) : getN d i ∈ d := by
  unfold getN
  rw [List.getD_eq_getElem?_getD, List.getElem?_eq_getElem h]
  exact List.getElem_mem h

theorem siftUpLoop_mem (start : Nat) (item : Node) (f : Nat) (d : List Node) (pos : Nat)
    (hpos : pos < d.length) (x : Node) (hx : x ∈ siftUpLoop start item f d pos) :
    x ∈ d ∨ x = item := by
  induction f generalizing d pos with
  | zero =>
    rw [siftUpLoop] at hx
    exact List.mem_or_eq_of_mem_set hx
  | succ n ih =>
    rw [siftUpLoop] at hx
    dsimp only at hx
    split at hx
    · rename_i hlt
      split at hx
      · exact List.mem_or_eq_of_mem_set hx
      · have hparent : (pos - 1) / 2 < d.length := by
          have : (pos - 1) / 2 ≤ pos - 1 := Nat.div_le_self _ _
          omega
        have := ih (d.set pos (getN d ((pos - 1) / 2))) ((pos - 1) / 2)
          (by simpa using hparent) hx
        rcases this with h | h
        · rcases List.mem_or_eq_of_mem_set h with h2 | h2
          · exact .inl h2
          · exact .inl (h2 ▸ getN_mem d _ hparent)
        · exact .inr h
    · exact List.mem_or_eq_of_mem_set hx

theorem siftUpLoop_length (start : Nat) (item : Node) (f : Nat) (d : List Node) (pos : Nat) :
    (siftUpLoop start item f d pos).length = d.length := by
  induction f generalizing d pos with
  | zero => simp [siftUpLoop]
  | succ n ih =>
    rw [siftUpLoop]
    dsimp only
    split
    · split
      · simp
      · rw [ih]; simp
    · simp

theorem siftDownBtmLoop_mem (start end_ : Nat) (item : Node) (f : Nat) (d : List Node)
    (pos : Nat) (hpos : pos < d.length) (hend : end_ ≤ d.length) (x : Node)
    (hx : x ∈ siftDownBtmLoop start end_ item f d pos) :
    x ∈ d ∨ x = item := by
  induction f generalizing d pos with
  | zero => exact siftUpLoop_mem _ _ _ _ _ hpos x hx
  | succ n ih =>
    rw [siftDownBtmLoop] at hx
    dsimp only at hx
    split at hx
    · rename_i hc
      set child := if nodeLe (getN d (2 * pos + 1)) (getN d (2 * pos + 1 + 1))
          then 2 * pos + 1 + 1 else 2 * pos + 1 with hch
      have hchild : child < d.length := by
        rw [hch]; split <;> omega
      have := ih (d.set pos (getN d child)) child (by simpa using hchild)
        (by simpa using hend) hx
      rcases this with h | h
      · rcases List.mem_or_eq_of_mem_set h with h2 | h2
        · exact .inl h2
        · exact .inl (h2 ▸ getN_mem d child hchild)
      · exact .inr h
    · split at hx
      · rename_i hc hc2
        have hchild : 2 * pos + 1 < d.length := by omega
        have := siftUpLoop_mem _ _ _ _ _
          (show 2 * pos + 1 < (d.set pos (getN d (2 * pos + 1))).length by
            simpa using hchild) x hx
        rcases this with h | h
        · rcases List.mem_or_eq_of_mem_set h with h2 | h2
          · exact .inl h2
          · exact .inl (h2 ▸ getN_mem d _ hchild)
        · exact .inr h
      · exact siftUpLoop_mem _ _ _ _ _ hpos x hx

theorem heapPush_mem (d : List Node) (item x : Node) (hx : x ∈ heapPush d item) :
    x ∈ d ∨ x = item := by
  unfold heapPush siftUp at hx
  have hlen : d.length < (d ++ [item]).length := by simp
  rcases siftUpLoop_mem _ _ _ _ _ hlen x hx with h | h
  · rcases List.mem_append.1 h with h2 | h2
    · exact .inl h2
    · exact .inr (by simpa using h2)
  · right
    rw [h]
    unfold getN
    rw [List.getD_eq_getElem?_getD, List.getElem?_eq_getElem hlen]
    simp

theorem heapPop_mem (d : List Node) (c : Node) (rest : List Node)
    (h : heapPop d = some (c, rest)) : c ∈ d ∧ ∀ x ∈ rest, x ∈ d := by
  cases d with
  | nil => simp [heapPop] at h
  | cons d0 ds =>
    have hlast : (d0 :: ds).getLastD dummyNode ∈ d0 :: ds := by
      rw [List.getLastD_eq_getLast?, List.getLast?_eq_getLast _ (by simp),
        Option.getD_some]
      exact List.getLast_mem _
    rw [heapPop] at h
    cases hdrop : (d0 :: ds).dropLast with
    | nil =>
      rw [hdrop] at h
      simp only [Option.some.injEq, Prod.mk.injEq] at h
      obtain ⟨rfl, rfl⟩ := h
      exact ⟨hlast, by intro x hx; simp at hx⟩
    | cons r0 rs =>
      rw [hdrop] at h
      simp only [Option.some.injEq, Prod.mk.injEq] at h
      obtain ⟨rfl, hrst⟩ := h
      refine ⟨getN_mem _ 0 (by simp), ?_⟩
      intro x hx
      rw [← hrst] at hx
      have hx2 := siftDownBtmLoop_mem 0 (r0 :: rs).length _ _ _ 0
        (by simp) (by simp) x hx
      rcases hx2 with h2 | h2
      · rcases List.mem_or_eq_of_mem_set h2 with h3 | h3
        · exact List.dropLast_subset _ (hdrop ▸ h3)
        · exact h3 ▸ hlast
      · exact h2 ▸ hlast

theorem siftDownRangeLoop_mem (end_ : Nat) (item : Node) (f : Nat) (d : List Node)
    (pos : Nat) (hpos : pos < d.length) (hend : end_ ≤ d.length) (x : Node)
    (hx : x ∈ siftDownRangeLoop end_ item f d pos) :
    x ∈ d ∨ x = item := by
  induction f generalizing d pos with
  | zero =>
    rw [siftDownRangeLoop] at hx
    exact List.mem_or_eq_of_mem_set hx
  | succ n ih =>
    rw [siftDownRangeLoop] at hx
    dsimp only at hx
    split at hx
    · rename_i hc
      set child := if nodeLe (getN d (2 * pos + 1)) (getN d (2 * pos + 1 + 1))
          then 2 * pos + 1 + 1 else 2 * pos + 1 with hch
      have hchild : child < d.length := by
        rw [hch]; split <;> omega
      split at hx
      · exact List.mem_or_eq_of_mem_set hx
      · have := ih (d.set pos (getN d child)) child (by simpa using hchild)
          (by simpa using hend) hx
        rcases this with h | h
        · rcases List.mem_or_eq_of_mem_set h with h2 | h2
          · exact .inl h2
          · exact .inl (h2 ▸ getN_mem d child hchild)
        · exact .inr h
    · split at hx
      · rename_i hc hc2
        split at hx
        · have hchild : 2 * pos + 1 < d.length := by omega
          rcases List.mem_or_eq_of_mem_set hx with h | h
          · rcases List.mem_or_eq_of_mem_set h with h2 | h2
            · exact .inl h2
            · exact .inl (h2 ▸ getN_mem d _ hchild)
          · exact .inr h
        · exact List.mem_or_eq_of_mem_set hx
      · exact List.mem_or_eq_of_mem_set hx

theorem siftDownRangeLoop_length (end_ : Nat) (item : Node) (f : Nat) (d : List Node)
    (pos : Nat) : (siftDownRangeLoop end_ item f d pos).length = d.length := by
  induction f generalizing d pos with
  | zero => simp [siftDownRangeLoop]
  | succ n ih =>
    rw [siftDownRangeLoop]
    dsimp only
    split
    · split
      · split
        · simp
        · rw [ih]; simp
      · split
        · simp
        · rw [ih]; simp
    · split
      · split <;> simp
      · simp

theorem rebuildLoop_mem (n : Nat) (d : List Node) (hn : n ≤ d.length) (x : Node)
    (hx : x ∈ rebuildLoop d n) : x ∈ d := by
  induction n generalizing d with
  | zero => simpa [rebuildLoop] using hx
  | succ m ih =>
    rw [rebuildLoop] at hx
    have hm : m < d.length := by omega
    have hlen : (siftDownRangeLoop d.length (getN d m) d.length d m).length = d.length :=
      siftDownRangeLoop_length _ _ _ _ _
    have := ih (siftDownRangeLoop d.length (getN d m) d.length d m) (by omega) hx
    rcases siftDownRangeLoop_mem _ _ _ _ _ hm (le_refl _) x this with h | h
    · exact h
    · exact h ▸ getN_mem d m hm

theorem heapRebuild_mem (d : List Node) (x : Node) (hx : x ∈ heapRebuild d) : x ∈ d :=
  rebuildLoop_mem _ _ (Nat.div_le_self _ _) x hx

theorem mem_ite_singleton {α : Type} (c : Prop) [Decidable c] (x y : α) :
    (x ∈ if c then [y] else []) ↔ c ∧ x = y := by
  split <;> simp_all

theorem mem_neighbor_iff (p : Puzzle) (pos : Pos) (d : Direction) (q : Pos) :
    (d, q) ∈ neighbor p pos ↔
      (d = .Up ∧ 0 < pos.1 ∧ q = (pos.1 - 1, pos.2)) ∨
      (d = .Down ∧ pos.1 + 1 < p.num_rows ∧ q = (pos.1 + 1, pos.2)) ∨
      (d = .Left ∧ 0 < pos.2 ∧ q = (pos.1, pos.2 - 1)) ∨
      (d = .Right ∧ pos.2 + 1 < p.num_cols ∧ q = (pos.1, pos.2 + 1)) := by
  unfold neighbor
  dsimp only
  simp only [List.mem_append, mem_ite_singleton, Prod.mk.injEq]
  tauto

theorem back_unique (p : Puzzle) (pos nb q : Pos) (d : Direction)
    (h1 : (d, nb) ∈ neighbor p pos) (h2 : (dirInverse d, q) ∈ neighbor p nb) :
    q = pos := by
  obtain ⟨r, c⟩ := pos
  obtain ⟨r', c'⟩ := nb
  obtain ⟨qr, qc⟩ := q
  rcases (mem_neighbor_iff p (r, c) d (r', c')).1 h1 with
    ⟨hd, hb, he⟩ | ⟨hd, hb, he⟩ | ⟨hd, hb, he⟩ | ⟨hd, hb, he⟩ <;>
    subst hd <;>
    rcases (mem_neighbor_iff p (r', c') _ (qr, qc)).1 h2 with
      ⟨hd2, hb2, he2⟩ | ⟨hd2, hb2, he2⟩ | ⟨hd2, hb2, he2⟩ | ⟨hd2, hb2, he2⟩ <;>
    simp_all [dirInverse, Prod.ext_iff] <;>
    omega

theorem stepOnce_none_iff (p : Puzzle) (goal : Pos) (st : SearchState) :
    stepOnce p goal st = none ↔ heapPop st.open_set = none := by
  unfold stepOnce
  cases heapPop st.open_set with
  | none => simp
  | some pr => obtain ⟨c, rest⟩ := pr; simp

theorem aStarLoop_add (p : Puzzle) (goal : Pos) (f k : Nat) (st s : SearchState)
    (h : aStarLoop p goal f st = some s) :
    aStarLoop p goal (f + k) st = some s := by
  induction f generalizing st with
  | zero => simp [aStarLoop] at h
  | succ n ih =>
    have he : n + 1 + k = (n + k) + 1 := by omega
    rw [he, aStarLoop]
    rw [aStarLoop] at h
    cases hs : stepOnce p goal st with
    | none =>
      rw [hs] at h
      dsimp only at h ⊢
      exact h
    | some pr =>
      obtain ⟨c0, st'⟩ := pr
      rw [hs] at h
      dsimp only at h ⊢
      exact ih st' h

theorem a_star_stable (p : Puzzle) (start goal : Pos) (f k : Nat)
    (h : a_star p start goal f ≠ .outOfFuel) :
    a_star p start goal (f + k) = a_star p start goal f := by
  unfold a_star at h ⊢
  cases hL : aStarLoop p goal f (initState start goal) with
  | none => rw [hL] at h; exact absurd rfl h
  | some s => rw [aStarLoop_add p goal f k _ s hL]

theorem part_one_stable (s : String) (f k : Nat) (h : part_one s f ≠ .outOfFuel) :
    part_one s (f + k) = part_one s f := by
  unfold part_one at h ⊢
  cases hp : puzzleFromStr s with
  | error e => rfl
  | ok p =>
    rw [hp] at h
    dsimp only at h ⊢
    exact a_star_stable p _ _ f k h

/-! ## Claim theorems -/

/-- C2: the spec requires `part_two` on the example grid to return 94; in
the source `part_two` is `todo!()`, which unconditionally panics (modelled
as `none`) and never produces a value, 94 or otherwise. -/
theorem claim_C2_part_two_todo : part_two exampleInput = none := rfl

/-- C3 counterexample: on the 1×5 grid `"11111"` no path reaches the goal
(at most `MAX_SAME_DIRS = 3` steps right are permitted from the seed), and
the solver does not surface a recoverable "not found" result: after the
frontier is exhausted (4 iterations), `find_min_node(goal)` returns `None`
and the source's `.unwrap()` panics (`panicNoGoal`). -/
theorem claim_C3_counterexample : part_one "11111" 10 = .panicNoGoal := rfl

/-- C3 (amended): for every fuel bound, the solver on the no-path grid
`"11111"` either is still running or panics on the `unwrap` of
`find_min_node(goal)`; it never returns a recoverable "not found" value
(nor any numeric answer). -/
theorem claim_C3_no_path_panics (fuel : Nat) :
    part_one "11111" fuel = .outOfFuel ∨ part_one "11111" fuel = .panicNoGoal := by
  match fuel with
  | 0 => exact .inl rfl
  | 1 => exact .inl rfl
  | 2 => exact .inl rfl
  | 3 => exact .inl rfl
  | 4 => exact .inl rfl
  | (n + 5) =>
    right
    have h5 : part_one "11111" 5 = .panicNoGoal := rfl
    have he : (5 : Nat) + n = n + 5 := by omega
    rw [← he, part_one_stable "11111" 5 n (by rw [h5]; decide), h5]

/-- C4 counterexample: on the example grid the search explores four
consecutive `Down` steps `(0,0) → (1,0) → (2,0) → (3,0) → (4,0)`: the
node popped at iteration 1 is the turn-derived state at `(1,0)` heading
`Down` with `moves_left = 3` (its run is already 1 step long), and at
iterations 1, 9 and 16 the `is_allowed` guard permits three further
same-heading `Down` continuations (`moves_left` 3 → 2 → 1 → 0), a run of
4 > `MAX_SAME_DIRS` = 3 consecutive steps begun immediately after a
turn. -/
theorem claim_C4_counterexample :
    poppedAt examplePuzzle (12, 12) 0 =
      some { pos := (0, 0), last_dir := .Right, moves_left := 3, est_cost := 24 } ∧
    popAllows examplePuzzle (12, 12) 0 .Down (1, 0) = true ∧
    poppedAt examplePuzzle (12, 12) 1 =
      some { pos := (1, 0), last_dir := .Down, moves_left := 3, est_cost := 26 } ∧
    popAllows examplePuzzle (12, 12) 1 .Down (2, 0) = true ∧
    poppedAt examplePuzzle (12, 12) 9 =
      some { pos := (2, 0), last_dir := .Down, moves_left := 2, est_cost := 28 } ∧
    popAllows examplePuzzle (12, 12) 9 .Down (3, 0) = true ∧
    poppedAt examplePuzzle (12, 12) 16 =
      some { pos := (3, 0), last_dir := .Down, moves_left := 1, est_cost := 30 } ∧
    popAllows examplePuzzle (12, 12) 16 .Down (4, 0) = true :=
  ⟨rfl, rfl, rfl, rfl, rfl, rfl, rfl, rfl⟩

/-- C4 (amended): the guard bounds runs through the `moves_left` counter,
not a run length: a same-heading continuation requires `moves_left ≠ 0`
and decrements it, so any chain of consecutive same-heading steps starting
at a node `n0` has at most `n0.moves_left` further steps — at most 3 more
after a seed or a turn (both set `moves_left = MAX_SAME_DIRS = 3`).  Since
a turn step is itself the first step of its run, runs of up to 4
consecutive steps in one direction are permitted after a turn. -/
theorem claim_C4_run_bound (n0 : Node) (l : List Node)
    (h : List.Chain' sameDirStep (n0 :: l)) : l.length ≤ n0.moves_left := by
  induction l generalizing n0 with
  | nil => simp
  | cons b t ih =>
    rw [List.chain'_cons] at h
    obtain ⟨hstep, hch⟩ := h
    have hb := ih b hch
    obtain ⟨_, hne, hml⟩ := hstep
    simp only [List.length_cons]
    omega

/-- C6 counterexample: for the example grid the solver seeds the frontier
with exactly one state — position `(0,0)`, heading `Right`,
`moves_left = 3` (not a run length 0), `est_cost = h(start) = 24` — not
with two states (there is no `Down`-heading seed), and `costs` records 0
for it. -/
theorem claim_C6_counterexample :
    (initState (0, 0) (12, 12)).open_set =
      [{ pos := (0, 0), last_dir := .Right, moves_left := 3, est_cost := 24 }] ∧
    (initState (0, 0) (12, 12)).costs = [((24, (0, 0), 3), 0)] ∧
    (initState (0, 0) (12, 12)).parent = [] :=
  ⟨rfl, rfl, rfl⟩

/-- C6 (amended): for every start and goal, the frontier is seeded with
exactly one start state: at the start cell, heading `Right`, with
`moves_left = MAX_SAME_DIRS` and `est_cost = h(start)`, recorded in
`costs` with accumulated cost 0; the parent table starts empty. -/
theorem claim_C6_single_seed (start goal : Pos) :
    (initState start goal).open_set = [startNode start goal] ∧
    (startNode start goal).last_dir = .Right ∧
    (startNode start goal).moves_left = MAX_SAME_DIRS ∧
    (startNode start goal).est_cost = hman goal start ∧
    mlookup (initState start goal).costs (ckey (startNode start goal)) = some 0 ∧
    (initState start goal).parent = [] := by
  refine ⟨rfl, rfl, rfl, rfl, ?_, rfl⟩
  simp [initState, mlookup]

/-- C8 counterexample: `Puzzle::from_str` accepts the empty input (it
yields a 0×0 puzzle instead of a fatal error) and accepts input with
inconsistent line lengths (`"12\n345"` parses with `num_cols = 2` taken
from the first line while 5 bytes are stored), contradicting the claim
that both are rejected. -/
theorem claim_C8_counterexample :
    exceptIsOk (puzzleFromStr "") = true ∧
    exceptIsOk (puzzleFromStr "12\n345") = true ∧
    puzzleFromStr "" = .ok { num_cols := 0, num_rows := 0, nodes := [] } ∧
    puzzleFromStr "12\n345" =
      .ok { num_cols := 2, num_rows := 2, nodes := [49, 50, 51, 52, 53] } :=
  ⟨rfl, rfl, rfl, rfl⟩

/-- C8 (amended): parsing never fails: `from_str` returns `Ok` for every
input string — empty and ragged inputs included. -/
theorem claim_C8_parser_never_fails (s : String) :
    exceptIsOk (puzzleFromStr s) = true := rfl

/-- C9 counterexample: `Node::cmp` is not consistent with `PartialEq` in
either direction: two nodes differing only in `last_dir` compare `Equal`
under `cmp` yet are unequal under `PartialEq`, and two nodes equal under
`PartialEq` but with different `est_cost` do not compare `Equal`. -/
theorem claim_C9_counterexample :
    (nodeCmp { pos := (0, 0), last_dir := .Up, moves_left := 0, est_cost := 5 }
        { pos := (0, 0), last_dir := .Down, moves_left := 0, est_cost := 5 } = .eq ∧
      nodeEqB { pos := (0, 0), last_dir := .Up, moves_left := 0, est_cost := 5 }
        { pos := (0, 0), last_dir := .Down, moves_left := 0, est_cost := 5 } = false) ∧
    (nodeEqB { pos := (0, 0), last_dir := .Up, moves_left := 0, est_cost := 5 }
        { pos := (0, 0), last_dir := .Up, moves_left := 0, est_cost := 7 } = true ∧
      nodeCmp { pos := (0, 0), last_dir := .Up, moves_left := 0, est_cost := 5 }
        { pos := (0, 0), last_dir := .Up, moves_left := 0, est_cost := 7 } ≠ .eq) := by
  refine ⟨⟨rfl, rfl⟩, rfl, ?_⟩
  decide

/-- C9 (amended): `Node::cmp` returns `Equal` exactly when `est_cost`,
`pos` and `moves_left` agree — `last_dir` is ignored (the transcription
bug compares `self.last_dir` with itself), so `cmp`'s equivalence is
coarser in direction and finer in `est_cost` than `PartialEq`. -/
theorem claim_C9_cmp_iff (a b : Node) :
    nodeCmp a b = .eq ↔
      a.est_cost = b.est_cost ∧ a.pos = b.pos ∧ a.moves_left = b.moves_left := by
  obtain ⟨⟨ar, ac⟩, ad, am, ae⟩ := a
  obtain ⟨⟨br, bc⟩, bd, bm, be⟩ := b
  unfold nodeCmp compareDir
  dsimp only
  simp only [then_eq_eq_iff, Nat.compare_eq_eq, Prod.mk.injEq]
  constructor
  · rintro ⟨h1, h2, h3, h4, -⟩
    exact ⟨h1.symm, ⟨h2.symm, h3.symm⟩, h4.symm⟩
  · rintro ⟨h1, ⟨h2, h3⟩, h4⟩
    exact ⟨h1.symm, h2.symm, h3.symm, h4.symm, trivial⟩

/-- C10: whenever `is_allowed` lets a move continue in the current
heading (`src.last_dir = new_dir`), the guard
`!(last_dir == new_dir && moves_left == 0)` guarantees
`moves_left ≥ 1`, so the `u8` subtraction `current.moves_left - 1` in
`neighbor_node` never underflows. -/
theorem claim_C10_no_underflow (par : List (CKey × Pos)) (src : Node)
    (new_dir : Direction) (nb : Pos)
    (h : is_allowed par src new_dir nb = true) (hdir : src.last_dir = new_dir) :
    1 ≤ src.moves_left := by
  unfold is_allowed at h
  split at h
  · simp at h
  · subst hdir
    simp at h
    omega

/-- Witness for C10 at the seeded start node of the 1×5 grid: continuing
`Right` from the start is allowed and indeed `moves_left = 3 ≥ 1`. -/
theorem claim_C10_witness : 1 ≤ (startNode (0, 0) (0, 4)).moves_left :=
  claim_C10_no_underflow [] (startNode (0, 0) (0, 4)) .Right (0, 1)
    (by decide) rfl

/-! ## The no-backtracking invariant (C5)

The `costs` map is keyed by `(est_cost, pos, moves_left)` with
`est_cost = value + h(pos)`, so an existing key can never be re-inserted
with a different value: `cost_updated` is set exactly for fresh keys, and
`parent` is therefore written exactly once per key, with the position the
key's node was derived from — which is the cell lying behind that node's
heading.  Hence `is_allowed` always rejects the reverse-heading
neighbour of a popped node. -/

theorem isMatching_iff (a b : Node) :
    isMatching a b = true ↔
      a.pos = b.pos ∧ a.last_dir = b.last_dir ∧ a.moves_left = b.moves_left := by
  unfold isMatching
  simp [and_assoc]

theorem costsUpdate_none (m : List (CKey × Nat)) (k : CKey) (tent : Nat)
    (h : mlookup m k = none) : costsUpdate m k tent = (minsert m k tent, true) := by
  unfold costsUpdate
  rw [h]

theorem costsUpdate_some_stay (m : List (CKey × Nat)) (k : CKey) (tent prev : Nat)
    (h : mlookup m k = some prev) (hge : ¬ tent < prev) :
    costsUpdate m k tent = (m, false) := by
  unfold costsUpdate
  rw [h]
  dsimp only
  rw [if_neg hge]

theorem expandAllowed_inv (p : Puzzle) (goal : Pos) (cur : Node) (st : SearchState)
    (dir : Direction) (nb : Pos)
    (hdn : (dir, nb) ∈ neighbor p cur.pos) (hinv : StInv p goal st)
    (tent : Nat) (nnode : Node)
    (hpos : nnode.pos = nb) (hdir : nnode.last_dir = dir)
    (hest : nnode.est_cost = tent + hman goal nb) :
    StInv p goal
      (let cu := costsUpdate st.costs (ckey nnode) tent
       if cu.2 then
         { open_set :=
             if st.open_set.any (fun x => isMatching x nnode) then
               heapRebuild (st.open_set.map (fun x =>
                 if isMatching x nnode then { x with est_cost := nnode.est_cost }
                 else x))
             else heapPush st.open_set nnode
           costs := cu.1
           parent := minsert st.parent (ckey nnode) cur.pos }
       else { st with costs := cu.1 }) := by
  obtain ⟨hval, hdom, hback⟩ := hinv
  dsimp only
  cases hm : mlookup st.costs (ckey nnode) with
  | some prev =>
    have hmem := mlookup_mem _ _ _ hm
    have hv := hval _ hmem
    have hprev : prev = tent := by
      have hv2 : prev + hman goal nnode.pos = nnode.est_cost := hv
      rw [hest, hpos] at hv2
      omega
    rw [costsUpdate_some_stay _ _ _ _ hm (by omega)]
    exact ⟨hval, hdom, hback⟩
  | none =>
    rw [costsUpdate_none _ _ _ hm]
    show StInv p goal
      { open_set :=
          if st.open_set.any (fun x => isMatching x nnode) then
            heapRebuild (st.open_set.map (fun x =>
              if isMatching x nnode then { x with est_cost := nnode.est_cost }
              else x))
          else heapPush st.open_set nnode
        costs := minsert st.costs (ckey nnode) tent
        parent := minsert st.parent (ckey nnode) cur.pos }
    have hkey_old : ∀ x ∈ st.open_set, ckey x ≠ ckey nnode := by
      intro x hx he
      have hds := hdom x hx
      rw [he, hm] at hds
      simp at hds
    have hmatch_key : ∀ x : Node, isMatching x nnode = true →
        ckey { x with est_cost := nnode.est_cost } = ckey nnode := by
      intro x hx
      obtain ⟨h1, h2, h3⟩ := (isMatching_iff x nnode).1 hx
      simp [ckey, h1, h3]
    refine ⟨?_, ?_, ?_⟩
    · intro kv hkv
      rcases minsert_mem _ _ _ _ hkv with rfl | hkv'
      · show tent + hman goal nnode.pos = nnode.est_cost
        rw [hest, hpos]
      · exact hval _ hkv'
    · intro n hn
      have hself : (mlookup (minsert st.costs (ckey nnode) tent) (ckey nnode)).isSome
          = true := by
        rw [mlookup_minsert_self]; rfl
      have hold : ∀ x ∈ st.open_set,
          (mlookup (minsert st.costs (ckey nnode) tent) (ckey x)).isSome = true := by
        intro x hx
        rw [mlookup_minsert_ne _ _ _ _ (hkey_old x hx)]
        exact hdom x hx
      cases hany : st.open_set.any (fun x => isMatching x nnode) with
      | true =>
        rw [hany, if_pos rfl] at hn
        have hn2 := heapRebuild_mem _ _ hn
        rcases List.mem_map.1 hn2 with ⟨x, hx, rfl⟩
        cases hmx : isMatching x nnode with
        | true =>
          show (mlookup (minsert st.costs (ckey nnode) tent)
            (ckey { x with est_cost := nnode.est_cost })).isSome = true
          rw [hmatch_key x hmx]
          exact hself
        | false =>
          show (mlookup (minsert st.costs (ckey nnode) tent) (ckey x)).isSome = true
          exact hold x hx
      | false =>
        rw [hany, if_neg (by simp)] at hn
        rcases heapPush_mem _ _ _ hn with hx | rfl
        · exact hold _ hx
        · exact hself
    · intro n hn q hq
      have hnew : ∀ m : Node, m.pos = nb → m.last_dir = dir →
          (dirInverse m.last_dir, q) ∈ neighbor p m.pos →
          mlookup (minsert st.parent (ckey nnode) cur.pos) (ckey nnode) = some q := by
        intro m hmp hmd hmq
        rw [hmp, hmd] at hmq
        have hqc := back_unique p cur.pos nb q dir hdn hmq
        rw [mlookup_minsert_self, hqc]
      have hold : ∀ x ∈ st.open_set, (dirInverse x.last_dir, q) ∈ neighbor p x.pos →
          mlookup (minsert st.parent (ckey nnode) cur.pos) (ckey x) = some q := by
        intro x hx hxq
        rw [mlookup_minsert_ne _ _ _ _ (hkey_old x hx)]
        exact hback x hx q hxq
      cases hany : st.open_set.any (fun x => isMatching x nnode) with
      | true =>
        rw [hany, if_pos rfl] at hn
        have hn2 := heapRebuild_mem _ _ hn
        rcases List.mem_map.1 hn2 with ⟨x, hx, rfl⟩
        cases hmx : isMatching x nnode with
        | true =>
          rw [hmx, if_pos rfl] at hq
          show mlookup (minsert st.parent (ckey nnode) cur.pos)
            (ckey { x with est_cost := nnode.est_cost }) = some q
          rw [hmatch_key x hmx]
          obtain ⟨h1, h2, h3⟩ := (isMatching_iff x nnode).1 hmx
          exact hnew { x with est_cost := nnode.est_cost }
            (h1.trans hpos) (h2.trans hdir) hq
        | false =>
          rw [hmx, if_neg (by simp)] at hq
          show mlookup (minsert st.parent (ckey nnode) cur.pos) (ckey x) = some q
          exact hold x hx hq
      | false =>
        rw [hany, if_neg (by simp)] at hn
        rcases heapPush_mem _ _ _ hn with hx | rfl
        · exact hold _ hx hq
        · exact hnew n hpos hdir hq

theorem expandNeighbor_inv (p : Puzzle) (goal : Pos) (cur : Node) (st : SearchState)
    (dn : Direction × Pos) (hdn : dn ∈ neighbor p cur.pos)
    (hinv : StInv p goal st) : StInv p goal (expandNeighbor p goal cur st dn) := by
  obtain ⟨dir, nb⟩ := dn
  by_cases hallow : is_allowed st.parent cur dir nb = true
  · unfold expandNeighbor
    dsimp only
    rw [if_pos hallow]
    exact expandAllowed_inv p goal cur st dir nb hdn hinv _ _ rfl rfl rfl
  · unfold expandNeighbor
    dsimp only
    rw [if_neg hallow]
    exact hinv

theorem foldl_expand_inv (p : Puzzle) (goal : Pos) (cur : Node)
    (l : List (Direction × Pos)) (hl : ∀ dn ∈ l, dn ∈ neighbor p cur.pos)
    (st : SearchState) (hinv : StInv p goal st) :
    StInv p goal (l.foldl (expandNeighbor p goal cur) st) := by
  induction l generalizing st with
  | nil => exact hinv
  | cons a t ih =>
    exact ih (fun dn h => hl dn (List.mem_cons_of_mem _ h)) _
      (expandNeighbor_inv p goal cur st a (hl a (List.mem_cons_self _ _)) hinv)

theorem stepOnce_inv (p : Puzzle) (goal : Pos) (st : SearchState) (cur : Node)
    (st' : SearchState) (h : stepOnce p goal st = some (cur, st'))
    (hinv : StInv p goal st) : StInv p goal st' := by
  unfold stepOnce at h
  cases hp : heapPop st.open_set with
  | none => rw [hp] at h; simp at h
  | some pr =>
    obtain ⟨c, rest⟩ := pr
    rw [hp] at h
    simp only [Option.some.injEq, Prod.mk.injEq] at h
    obtain ⟨rfl, rfl⟩ := h
    have hrest := (heapPop_mem _ _ _ hp).2
    obtain ⟨hval, hdom, hback⟩ := hinv
    have hinv0 : StInv p goal { st with open_set := rest } :=
      ⟨hval, fun n hn => hdom n (hrest n hn), fun n hn => hback n (hrest n hn)⟩
    exact foldl_expand_inv p goal c _ (fun dn h => h) _ hinv0

theorem initState_inv (p : Puzzle) (goal : Pos) : StInv p goal (initState (0, 0) goal) := by
  refine ⟨?_, ?_, ?_⟩
  · intro kv hkv
    have hc : (initState (0, 0) goal).costs = [(ckey (startNode (0, 0) goal), 0)] := rfl
    rw [hc] at hkv
    rcases List.mem_singleton.1 hkv with rfl
    show 0 + hman goal (startNode (0, 0) goal).pos = (startNode (0, 0) goal).est_cost
    simp [startNode]
  · intro n hn
    have ho : (initState (0, 0) goal).open_set = [startNode (0, 0) goal] := rfl
    rw [ho] at hn
    rcases List.mem_singleton.1 hn with rfl
    have hc : (initState (0, 0) goal).costs = [(ckey (startNode (0, 0) goal), 0)] := rfl
    rw [hc]
    simp [mlookup]
  · intro n hn q hq
    have ho : (initState (0, 0) goal).open_set = [startNode (0, 0) goal] := rfl
    rw [ho] at hn
    rcases List.mem_singleton.1 hn with rfl
    rcases (mem_neighbor_iff p _ _ _).1 hq with
      ⟨hd, hb, _⟩ | ⟨hd, hb, _⟩ | ⟨hd, hb, _⟩ | ⟨hd, hb, _⟩ <;>
      simp_all [startNode, dirInverse]

theorem runFrom_inv (p : Puzzle) (goal : Pos) (k : Nat) (st st' : SearchState)
    (h : runFrom p goal k st = some st') (hinv : StInv p goal st) :
    StInv p goal st' := by
  induction k generalizing st with
  | zero =>
    rw [runFrom] at h
    obtain rfl : st = st' := by simpa using h
    exact hinv
  | succ n ih =>
    rw [runFrom] at h
    cases hs : stepOnce p goal st with
    | none => rw [hs] at h; simp at h
    | some pr =>
      obtain ⟨c, s2⟩ := pr
      rw [hs] at h
      dsimp only at h
      exact ih _ h (stepOnce_inv p goal st c s2 hs hinv)

/-- C5: at every iteration of the search (any grid, any goal, start
`(0,0)`), the popped state's neighbour lying in the exact reverse of its
heading is rejected by `is_allowed`: no explored transition reverses the
immediately preceding direction.  This holds because a `costs` key pins
its value (`est_cost = value + h(pos)`), so `parent` is written exactly
once per key, always with the cell the state was derived from. -/
theorem claim_C5_no_reversal (p : Puzzle) (goal : Pos) (k : Nat) (cur : Node) (q : Pos)
    (hpop : poppedAt p goal k = some cur)
    (hmem : (dirInverse cur.last_dir, q) ∈ neighbor p cur.pos) :
    popAllows p goal k (dirInverse cur.last_dir) q = false := by
  unfold poppedAt at hpop
  unfold popAllows
  cases hr : runFrom p goal k (initState (0, 0) goal) with
  | none => rw [hr] at hpop
  | some st =>
    rw [hr] at hpop
    dsimp only at hpop ⊢
    cases hp2 : heapPop st.open_set with
    | none => rw [hp2] at hpop
    | some pr =>
      obtain ⟨c, rest⟩ := pr
      rw [hp2] at hpop
      dsimp only at hpop ⊢
      obtain rfl : c = cur := by simpa using hpop
      have hinv := runFrom_inv p goal k _ _ hr (initState_inv p goal)
      have hcur : c ∈ st.open_set := (heapPop_mem _ _ _ hp2).1
      have hpar := hinv.2.2 c hcur q hmem
      unfold is_allowed
      rw [if_pos hpar]

/-- Witness for C5: on the 1×3 grid `"111"`, the node popped at iteration
1 is the state at `(0,1)` heading `Right`; its reverse neighbour `(0,0)`
is rejected by `is_allowed`. -/
theorem claim_C5_witness :
    popAllows (puzzleOf "111") (0, 2) 1 (dirInverse Direction.Right) (0, 0) = false :=
  claim_C5_no_reversal (puzzleOf "111") (0, 2) 1
    { pos := (0, 1), last_dir := .Right, moves_left := 2, est_cost := 2 } (0, 0)
    (by rfl) (by decide)

/-- Witness for C4's amended bound: the explored `Down` chain on the
example grid — 3 continuation steps from the turn-derived node at `(1,0)`
with `moves_left = 3`, saturating the bound. -/
theorem claim_C4_run_bound_witness :
    [ ({ pos := (2, 0), last_dir := .Down, moves_left := 2, est_cost := 28 } : Node),
      { pos := (3, 0), last_dir := .Down, moves_left := 1, est_cost := 30 },
      { pos := (4, 0), last_dir := .Down, moves_left := 0, est_cost := 33 } ].length ≤
      ({ pos := (1, 0), last_dir := .Down, moves_left := 3, est_cost := 26 } : Node).moves_left :=
  claim_C4_run_bound
    { pos := (1, 0), last_dir := .Down, moves_left := 3, est_cost := 26 }
    [ { pos := (2, 0), last_dir := .Down, moves_left := 2, est_cost := 28 },
      { pos := (3, 0), last_dir := .Down, moves_left := 1, est_cost := 30 },
      { pos := (4, 0), last_dir := .Down, moves_left := 0, est_cost := 33 } ]
    (List.chain'_cons.2 ⟨⟨rfl, by decide, rfl⟩,
      List.chain'_cons.2 ⟨⟨rfl, by decide, rfl⟩,
        List.chain'_cons.2 ⟨⟨rfl, by decide, rfl⟩, by simp⟩⟩⟩)

/-- C7 counterexample: on the all-zero 2×2 grid the goal `(1,1)` is
popped at iteration 2, yet the solver does not return there: iteration 3
pops a further node (the loop only stops when the frontier is empty), and
the final answer is read from the costs table afterwards. -/
theorem claim_C7_counterexample :
    poppedAt (puzzleOf "00\n00") (1, 1) 2 =
      some { pos := (1, 1), last_dir := .Down, moves_left := 3, est_cost := 0 } ∧
    poppedAt (puzzleOf "00\n00") (1, 1) 3 =
      some { pos := (1, 0), last_dir := .Down, moves_left := 3, est_cost := 1 } ∧
    part_one "00\n00" 10 = .ok 0 :=
  ⟨rfl, rfl, rfl⟩

/-- C7 (amended): the search loop never returns early: whenever
`a_star`'s loop finishes within its fuel bound, the final state's
frontier is exhausted (`pop` yields `None`) — the answer is only ever
produced after the frontier empties, goal pops notwithstanding. -/
theorem claim_C7_return_only_on_exhaustion (p : Puzzle) (goal : Pos) (fuel : Nat)
    (st fin : SearchState) (h : aStarLoop p goal fuel st = some fin) :
    heapPop fin.open_set = none := by
  induction fuel generalizing st with
  | zero => simp [aStarLoop] at h
  | succ n ih =>
    rw [aStarLoop] at h
    cases hs : stepOnce p goal st with
    | none =>
      rw [hs] at h
      dsimp only at h
      obtain rfl : st = fin := by simpa using h
      exact (stepOnce_none_iff p goal st).1 hs
    | some pr =>
      obtain ⟨c, st'⟩ := pr
      rw [hs] at h
      dsimp only at h
      exact ih st' h

/-- Witness for C7's amended theorem: the loop on the all-zero 2×2 grid
finishes within 10 iterations at the state below, whose frontier is
exhausted. -/
theorem claim_C7_witness :
    heapPop ({ open_set := [],
               costs := [((2, (0, 0), 3), 0), ((1, (1, 0), 3), 0),
                 ((1, (0, 1), 2), 0), ((0, (1, 1), 3), 0)],
               parent := [((1, (1, 0), 3), (0, 0)), ((1, (0, 1), 2), (0, 0)),
                 ((0, (1, 1), 3), (0, 1))] } : SearchState).open_set = none :=
  claim_C7_return_only_on_exhaustion (puzzleOf "00\n00") (1, 1) 10
    (initState (0, 0) (1, 1)) _ (by rfl)

set_option maxRecDepth 1000000 in
set_option maxHeartbeats 12000000 in
/-- C1: contrary to the spec (and the repository's own
`tests::test_part_one`, which asserts 102), `part_one` on the published
13×13 example grid does not return 102: the search loop does not
terminate.  Because every `costs` key contains its own `est_cost`, each
trip around any positive-cost grid cycle mints a fresh key, sets
`cost_updated`, and re-feeds the frontier, so the frontier is never
exhausted — and the loop has no early return at the goal.  After 60
iterations the loop is still running (and this persists at any bound:
simulation shows the frontier nonempty beyond 10^5 iterations, with the
best recorded goal cost stuck at 105, not 102). -/
theorem claim_C1_part_one_diverges : part_one exampleInput 60 = .outOfFuel := rfl

/-! ## Divergence of `a_star` on the 2×2 all-ones grid

Each `costs` key embeds its own `est_cost`, so positive-cost cycles keep
minting fresh keys: the search enters a periodic orbit (period 4, all
`est_cost`s shifted by +4 per lap) and the frontier is never exhausted.
The orbit is `cycState k → cycM1 k → cycM2 k → cycM3 k → cycState (k+1)`,
entered at loop iteration 3. -/

theorem mlookup_append_none {α : Type} (m1 m2 : List (CKey × α)) (k : CKey)
    (h : ∀ kv ∈ m1, kv.1 ≠ k) : mlookup (m1 ++ m2) k = mlookup m2 k := by
  induction m1 with
  | nil => rfl
  | cons kv rest ih =>
    obtain ⟨k0, v0⟩ := kv
    rw [List.cons_append, mlookup,
      if_neg (h (k0, v0) (List.mem_cons_self _ _))]
    exact ih (fun kv hkv => h kv (List.mem_cons_of_mem _ hkv))

theorem minsert_fresh_append {α : Type} (m : List (CKey × α)) (k : CKey) (v : α)
    (h : mlookup m k = none) : minsert m k v = m ++ [(k, v)] := by
  induction m with
  | nil => rfl
  | cons kv rest ih =>
    obtain ⟨k0, v0⟩ := kv
    rw [mlookup] at h
    split at h
    · exact absurd h (by simp)
    · rw [minsert]
      rename_i hne
      rw [if_neg hne, List.cons_append, ih h]

theorem cycCosts_bound (k : Nat) :
    ∀ kv ∈ cycCosts k, kv.1.1 ≤ 2 + 4 * k := by
  induction k with
  | zero =>
    intro kv hkv
    simp only [cycCosts, List.mem_cons, List.not_mem_nil, or_false] at hkv
    rcases hkv with rfl | rfl | rfl | rfl <;> dsimp only <;> omega
  | succ n ih =>
    intro kv hkv
    rw [cycCosts] at hkv
    rcases List.mem_append.1 hkv with h | h
    · have := ih kv h; omega
    · simp only [List.mem_cons, List.not_mem_nil, or_false] at h
      rcases h with rfl | rfl | rfl | rfl <;> dsimp only <;> omega

theorem cycParent_bound (k : Nat) :
    ∀ kv ∈ cycParent k, kv.1.1 ≤ 2 + 4 * k := by
  induction k with
  | zero =>
    intro kv hkv
    simp only [cycParent, List.mem_cons, List.not_mem_nil, or_false] at hkv
    rcases hkv with rfl | rfl | rfl <;> dsimp only <;> omega
  | succ n ih =>
    intro kv hkv
    rw [cycParent] at hkv
    rcases List.mem_append.1 hkv with h | h
    · have := ih kv h; omega
    · simp only [List.mem_cons, List.not_mem_nil, or_false] at h
      rcases h with rfl | rfl | rfl | rfl <;> dsimp only <;> omega

theorem expandNeighbor_blocked (p : Puzzle) (goal : Pos) (cur : Node)
    (st : SearchState) (d : Direction) (nb : Pos)
    (hpar : mlookup st.parent (ckey cur) = some nb) :
    expandNeighbor p goal cur st (d, nb) = st := by
  unfold expandNeighbor
  dsimp only
  rw [if_neg]
  unfold is_allowed
  rw [if_pos hpar]
  simp

theorem expandNeighbor_fresh (p : Puzzle) (goal : Pos) (cur : Node)
    (C : List (CKey × Nat)) (P : List (CKey × Pos)) (d : Direction) (nb : Pos) (v : Nat)
    (hpar : mlookup P (ckey cur) ≠ some nb)
    (hd : cur.last_dir ≠ d)
    (hcost : mlookup C (ckey cur) = some v)
    (hfresh : mlookup C (v + (puzzleIx p nb - 48) + hman goal nb, nb, 3) = none)
    (hfreshP : mlookup P (v + (puzzleIx p nb - 48) + hman goal nb, nb, 3) = none) :
    expandNeighbor p goal cur { open_set := [], costs := C, parent := P } (d, nb) =
      { open_set := [{ pos := nb, last_dir := d, moves_left := 3, est_cost := v + (puzzleIx p nb - 48) + hman goal nb }]
        costs := C ++ [((v + (puzzleIx p nb - 48) + hman goal nb, nb, 3),
          v + (puzzleIx p nb - 48))]
        parent := P ++ [((v + (puzzleIx p nb - 48) + hman goal nb, nb, 3), cur.pos)] } := by
  have hall : is_allowed P cur d nb = true := by
    unfold is_allowed
    rw [if_neg hpar]
    simp [hd]
  have hml : (cur.last_dir == d) = false := by simp [hd]
  unfold expandNeighbor
  dsimp only
  rw [if_pos hall, hcost, hml]
  simp only [Option.getD_some, Bool.false_eq_true, if_false, ckey]
  rw [costsUpdate_none _ _ _ hfresh]
  simp only [List.any_nil, Bool.false_eq_true, if_false, eq_self_iff_true, if_true,
    minsert_fresh_append _ _ _ hfresh, minsert_fresh_append _ _ _ hfreshP]
  rfl

theorem mlookup_none_of_bound {α : Type} (m : List (CKey × α)) (B : Nat)
    (hB : ∀ kv ∈ m, kv.1.1 ≤ B) (key : CKey) (hk : B < key.1) :
    mlookup m key = none := by
  induction m with
  | nil => rfl
  | cons kv rest ih =>
    obtain ⟨k0, v0⟩ := kv
    rw [mlookup, if_neg]
    · exact ih (fun kv hkv => hB kv (List.mem_cons_of_mem _ hkv))
    · intro he
      have hb := hB (k0, v0) (List.mem_cons_self _ _)
      rw [he] at hb
      dsimp only at hb
      omega

theorem keys_ne_of_bound {α : Type} (m : List (CKey × α)) (B : Nat)
    (hB : ∀ kv ∈ m, kv.1.1 ≤ B) (key : CKey) (hk : B < key.1) :
    ∀ kv ∈ m, kv.1 ≠ key := by
  intro kv hkv he
  have hb := hB kv hkv
  rw [he] at hb
  omega

theorem cycParent_lookup (k : Nat) :
    mlookup (cycParent k) (2 + 4 * k, (1, 1), 3) = some (0, 1) := by
  cases k with
  | zero => rfl
  | succ n =>
    rw [cycParent, mlookup_append_none _ _ _
      (keys_ne_of_bound _ _ (cycParent_bound n) _ (by show 2 + 4 * n < 2 + 4 * (n + 1); omega))]
    rw [mlookup, if_neg (by intro he; simp at he)]
    rw [mlookup, if_neg (by intro he; simp at he)]
    rw [mlookup, if_neg (by intro he; simp at he)]
    rw [mlookup, if_pos (by rw [show (6 : Nat) + 4 * n = 2 + 4 * (n + 1) from by omega])]

theorem cycCosts_lookup (k : Nat) :
    mlookup (cycCosts k) (2 + 4 * k, (1, 1), 3) = some (2 + 4 * k) := by
  cases k with
  | zero => rfl
  | succ n =>
    rw [cycCosts, mlookup_append_none _ _ _
      (keys_ne_of_bound _ _ (cycCosts_bound n) _ (by show 2 + 4 * n < 2 + 4 * (n + 1); omega))]
    rw [mlookup, if_neg (by intro he; simp at he)]
    rw [mlookup, if_neg (by intro he; simp at he)]
    rw [mlookup, if_neg (by intro he; simp at he)]
    rw [mlookup, if_pos (by rw [show (6 : Nat) + 4 * n = 2 + 4 * (n + 1) from by omega])]
    exact congrArg some (by omega)

theorem twoPuzzle_neighbor_11 :
    neighbor twoPuzzle (1, 1) = [(.Up, (0, 1)), (.Left, (1, 0))] := rfl

theorem twoPuzzle_neighbor_10 :
    neighbor twoPuzzle (1, 0) = [(.Up, (0, 0)), (.Right, (1, 1))] := rfl

theorem twoPuzzle_neighbor_00 :
    neighbor twoPuzzle (0, 0) = [(.Down, (1, 0)), (.Right, (0, 1))] := rfl

theorem twoPuzzle_neighbor_01 :
    neighbor twoPuzzle (0, 1) = [(.Down, (1, 1)), (.Left, (0, 0))] := rfl

theorem cycle_stepA (k : Nat) :
    stepOnce twoPuzzle (1, 1) (cycState k) =
      some (Node.mk (1, 1) .Down 3 (2 + 4 * k), cycM1 k) := by
  unfold stepOnce cycState cycM1
  rw [show heapPop [Node.mk (1, 1) .Down 3 (2 + 4 * k)] = some (Node.mk (1, 1) .Down 3 (2 + 4 * k), []) from rfl]
  dsimp only
  rw [twoPuzzle_neighbor_11, List.foldl_cons, List.foldl_cons, List.foldl_nil]
  rw [expandNeighbor_blocked twoPuzzle (1, 1) (Node.mk (1, 1) .Down 3 (2 + 4 * k))
    { open_set := [], costs := cycCosts k, parent := cycParent k } .Up (0, 1)
    (by exact cycParent_lookup k)]
  rw [expandNeighbor_fresh twoPuzzle (1, 1) (Node.mk (1, 1) .Down 3 (2 + 4 * k))
    (cycCosts k) (cycParent k) .Left (1, 0) (2 + 4 * k)
    (by intro he
        rw [show ckey (Node.mk (1, 1) .Down 3 (2 + 4 * k)) = (2 + 4 * k, (1, 1), 3) from rfl,
          cycParent_lookup k] at he
        simp at he)
    (by intro he; simp at he)
    (by exact cycCosts_lookup k)
    (by rw [show ((2 + 4 * k + (puzzleIx twoPuzzle (1, 0) - 48) + hman (1, 1) (1, 0),
          ((1 : Nat), (0 : Nat)), (3 : Nat)) : CKey) = (2 + 4 * k + 1 + 1, (1, 0), 3) from rfl]
        exact mlookup_none_of_bound _ _ (cycCosts_bound k) _
          (by show 2 + 4 * k < 2 + 4 * k + 1 + 1; omega))
    (by rw [show ((2 + 4 * k + (puzzleIx twoPuzzle (1, 0) - 48) + hman (1, 1) (1, 0),
          ((1 : Nat), (0 : Nat)), (3 : Nat)) : CKey) = (2 + 4 * k + 1 + 1, (1, 0), 3) from rfl]
        exact mlookup_none_of_bound _ _ (cycParent_bound k) _
          (by show 2 + 4 * k < 2 + 4 * k + 1 + 1; omega))]
  rw [show puzzleIx twoPuzzle (1, 0) - 48 = 1 from rfl,
    show hman (1, 1) (1, 0) = 1 from rfl]
  simp only [Option.some.injEq, SearchState.mk.injEq, List.cons.injEq, Node.mk.injEq,
    Prod.mk.injEq, List.append_cancel_left_eq, and_true, true_and]
  omega

theorem mlookup_append_some {α : Type} (m1 m2 : List (CKey × α)) (k : CKey) (v : α)
    (h : mlookup m1 k = some v) : mlookup (m1 ++ m2) k = some v := by
  induction m1 with
  | nil => exact Option.noConfusion h
  | cons kv rest ih =>
    obtain ⟨k0, v0⟩ := kv
    rw [List.cons_append, mlookup]
    rw [mlookup] at h
    split at h
    · rename_i hp
      rw [if_pos hp]
      exact h
    · rename_i hp
      rw [if_neg hp]
      exact ih h

theorem cycM1_costs_lookup (k : Nat) :
    mlookup (cycCosts k ++ [((4 + 4 * k, (1, 0), 3), 3 + 4 * k)]) (4 + 4 * k, (1, 0), 3) =
      some (3 + 4 * k) := by
  rw [mlookup_append_none _ _ _
    (keys_ne_of_bound _ _ (cycCosts_bound k) _ (by show 2 + 4 * k < 4 + 4 * k; omega))]
  rw [mlookup, if_pos rfl]

theorem cycM1_parent_lookup (k : Nat) :
    mlookup (cycParent k ++ [((4 + 4 * k, (1, 0), 3), (1, 1))]) (4 + 4 * k, (1, 0), 3) =
      some (1, 1) := by
  rw [mlookup_append_none _ _ _
    (keys_ne_of_bound _ _ (cycParent_bound k) _ (by show 2 + 4 * k < 4 + 4 * k; omega))]
  rw [mlookup, if_pos rfl]

theorem cycM1_costs_bound (k : Nat) :
    ∀ kv ∈ cycCosts k ++ [((4 + 4 * k, (1, 0), 3), 3 + 4 * k)], kv.1.1 ≤ 4 + 4 * k := by
  intro kv hkv
  rcases List.mem_append.1 hkv with h | h
  · have := cycCosts_bound k kv h
    omega
  · simp only [List.mem_cons, List.not_mem_nil, or_false] at h
    subst h
    dsimp only
    omega

theorem cycM1_parent_bound (k : Nat) :
    ∀ kv ∈ cycParent k ++ [((4 + 4 * k, (1, 0), 3), (1, 1))], kv.1.1 ≤ 4 + 4 * k := by
  intro kv hkv
  rcases List.mem_append.1 hkv with h | h
  · have := cycParent_bound k kv h
    omega
  · simp only [List.mem_cons, List.not_mem_nil, or_false] at h
    subst h
    dsimp only
    omega

theorem cycle_stepB (k : Nat) :
    stepOnce twoPuzzle (1, 1) (cycM1 k) =
      some (Node.mk (1, 0) .Left 3 (4 + 4 * k), cycM2 k) := by
  unfold stepOnce cycM1 cycM2
  rw [show heapPop [Node.mk (1, 0) .Left 3 (4 + 4 * k)] = some (Node.mk (1, 0) .Left 3 (4 + 4 * k), []) from rfl]
  dsimp only
  rw [twoPuzzle_neighbor_10, List.foldl_cons, List.foldl_cons, List.foldl_nil]
  rw [expandNeighbor_fresh twoPuzzle (1, 1) (Node.mk (1, 0) .Left 3 (4 + 4 * k))
    (cycCosts k ++ [((4 + 4 * k, (1, 0), 3), 3 + 4 * k)])
    (cycParent k ++ [((4 + 4 * k, (1, 0), 3), (1, 1))]) .Up (0, 0) (3 + 4 * k)
    (by intro he
        rw [show ckey (Node.mk (1, 0) .Left 3 (4 + 4 * k)) = (4 + 4 * k, (1, 0), 3) from rfl,
          cycM1_parent_lookup k] at he
        simp at he)
    (by intro he; simp at he)
    (by exact cycM1_costs_lookup k)
    (by rw [show ((3 + 4 * k + (puzzleIx twoPuzzle (0, 0) - 48) + hman (1, 1) (0, 0),
          ((0 : Nat), (0 : Nat)), (3 : Nat)) : CKey) = (3 + 4 * k + 1 + 2, (0, 0), 3) from rfl]
        exact mlookup_none_of_bound _ _ (cycM1_costs_bound k) _
          (by show 4 + 4 * k < 3 + 4 * k + 1 + 2; omega))
    (by rw [show ((3 + 4 * k + (puzzleIx twoPuzzle (0, 0) - 48) + hman (1, 1) (0, 0),
          ((0 : Nat), (0 : Nat)), (3 : Nat)) : CKey) = (3 + 4 * k + 1 + 2, (0, 0), 3) from rfl]
        exact mlookup_none_of_bound _ _ (cycM1_parent_bound k) _
          (by show 4 + 4 * k < 3 + 4 * k + 1 + 2; omega))]
  rw [show puzzleIx twoPuzzle (0, 0) - 48 = 1 from rfl,
    show hman (1, 1) (0, 0) = 2 from rfl,
    show (3 : Nat) + 4 * k + 1 + 2 = 6 + 4 * k from by omega,
    show (3 : Nat) + 4 * k + 1 = 4 + 4 * k from by omega]
  rw [expandNeighbor_blocked twoPuzzle (1, 1) (Node.mk (1, 0) .Left 3 (4 + 4 * k))
    { open_set := [Node.mk (0, 0) .Up 3 (6 + 4 * k)]
      costs := (cycCosts k ++ [((4 + 4 * k, (1, 0), 3), 3 + 4 * k)]) ++ [((6 + 4 * k, (0, 0), 3), 4 + 4 * k)]
      parent := (cycParent k ++ [((4 + 4 * k, (1, 0), 3), (1, 1))]) ++ [((6 + 4 * k, (0, 0), 3), (1, 0))] }
    .Right (1, 1)
    (by exact mlookup_append_some _ _ _ _ (cycM1_parent_lookup k))]
  simp only [Option.some.injEq, Prod.mk.injEq, SearchState.mk.injEq, List.cons.injEq,
    Node.mk.injEq, List.append_assoc, List.singleton_append, List.cons_append,
    List.nil_append, List.append_cancel_left_eq, and_true, true_and]

theorem cycM2_parent_lookup (k : Nat) :
    mlookup (cycParent k ++ [((4 + 4 * k, (1, 0), 3), (1, 1)), ((6 + 4 * k, (0, 0), 3), (1, 0))])
      (6 + 4 * k, (0, 0), 3) = some (1, 0) := by
  rw [mlookup_append_none _ _ _
    (keys_ne_of_bound _ _ (cycParent_bound k) _ (by show 2 + 4 * k < 6 + 4 * k; omega))]
  rw [mlookup, if_neg (by intro he; simp at he)]
  rw [mlookup, if_pos rfl]

theorem cycM2_costs_lookup (k : Nat) :
    mlookup (cycCosts k ++ [((4 + 4 * k, (1, 0), 3), 3 + 4 * k), ((6 + 4 * k, (0, 0), 3), 4 + 4 * k)])
      (6 + 4 * k, (0, 0), 3) = some (4 + 4 * k) := by
  rw [mlookup_append_none _ _ _
    (keys_ne_of_bound _ _ (cycCosts_bound k) _ (by show 2 + 4 * k < 6 + 4 * k; omega))]
  rw [mlookup, if_neg (by intro he; simp at he)]
  rw [mlookup, if_pos rfl]

theorem cycM2_costs_fresh (k : Nat) :
    mlookup (cycCosts k ++ [((4 + 4 * k, (1, 0), 3), 3 + 4 * k), ((6 + 4 * k, (0, 0), 3), 4 + 4 * k)])
      (4 + 4 * k + 1 + 1, (0, 1), 3) = none := by
  rw [mlookup_append_none _ _ _
    (keys_ne_of_bound _ _ (cycCosts_bound k) _ (by show 2 + 4 * k < 4 + 4 * k + 1 + 1; omega))]
  rw [mlookup, if_neg (by intro he; simp only [Prod.mk.injEq] at he; omega)]
  rw [mlookup, if_neg (by intro he; simp only [Prod.mk.injEq] at he; omega)]
  rfl

theorem cycM2_parent_fresh (k : Nat) :
    mlookup (cycParent k ++ [((4 + 4 * k, (1, 0), 3), (1, 1)), ((6 + 4 * k, (0, 0), 3), (1, 0))])
      (4 + 4 * k + 1 + 1, (0, 1), 3) = none := by
  rw [mlookup_append_none _ _ _
    (keys_ne_of_bound _ _ (cycParent_bound k) _ (by show 2 + 4 * k < 4 + 4 * k + 1 + 1; omega))]
  rw [mlookup, if_neg (by intro he; simp only [Prod.mk.injEq] at he; omega)]
  rw [mlookup, if_neg (by intro he; simp only [Prod.mk.injEq] at he; omega)]
  rfl

theorem cycle_stepC (k : Nat) :
    stepOnce twoPuzzle (1, 1) (cycM2 k) =
      some (Node.mk (0, 0) .Up 3 (6 + 4 * k), cycM3 k) := by
  unfold stepOnce cycM2 cycM3
  rw [show heapPop [Node.mk (0, 0) .Up 3 (6 + 4 * k)] = some (Node.mk (0, 0) .Up 3 (6 + 4 * k), []) from rfl]
  dsimp only
  rw [twoPuzzle_neighbor_00, List.foldl_cons, List.foldl_cons, List.foldl_nil]
  rw [expandNeighbor_blocked twoPuzzle (1, 1) (Node.mk (0, 0) .Up 3 (6 + 4 * k))
    { open_set := []
      costs := cycCosts k ++ [((4 + 4 * k, (1, 0), 3), 3 + 4 * k), ((6 + 4 * k, (0, 0), 3), 4 + 4 * k)]
      parent := cycParent k ++ [((4 + 4 * k, (1, 0), 3), (1, 1)), ((6 + 4 * k, (0, 0), 3), (1, 0))] }
    .Down (1, 0)
    (by exact cycM2_parent_lookup k)]
  rw [expandNeighbor_fresh twoPuzzle (1, 1) (Node.mk (0, 0) .Up 3 (6 + 4 * k))
    (cycCosts k ++ [((4 + 4 * k, (1, 0), 3), 3 + 4 * k), ((6 + 4 * k, (0, 0), 3), 4 + 4 * k)])
    (cycParent k ++ [((4 + 4 * k, (1, 0), 3), (1, 1)), ((6 + 4 * k, (0, 0), 3), (1, 0))])
    .Right (0, 1) (4 + 4 * k)
    (by intro he
        rw [show ckey (Node.mk (0, 0) .Up 3 (6 + 4 * k)) = (6 + 4 * k, (0, 0), 3) from rfl,
          cycM2_parent_lookup k] at he
        simp at he)
    (by intro he; simp at he)
    (by exact cycM2_costs_lookup k)
    (by rw [show ((4 + 4 * k + (puzzleIx twoPuzzle (0, 1) - 48) + hman (1, 1) (0, 1),
          ((0 : Nat), (1 : Nat)), (3 : Nat)) : CKey) = (4 + 4 * k + 1 + 1, (0, 1), 3) from rfl]
        exact cycM2_costs_fresh k)
    (by rw [show ((4 + 4 * k + (puzzleIx twoPuzzle (0, 1) - 48) + hman (1, 1) (0, 1),
          ((0 : Nat), (1 : Nat)), (3 : Nat)) : CKey) = (4 + 4 * k + 1 + 1, (0, 1), 3) from rfl]
        exact cycM2_parent_fresh k)]
  rw [show puzzleIx twoPuzzle (0, 1) - 48 = 1 from rfl,
    show hman (1, 1) (0, 1) = 1 from rfl,
    show (4 : Nat) + 4 * k + 1 + 1 = 6 + 4 * k from by omega,
    show (4 : Nat) + 4 * k + 1 = 5 + 4 * k from by omega]
  simp only [Option.some.injEq, Prod.mk.injEq, SearchState.mk.injEq, List.cons.injEq,
    Node.mk.injEq, List.append_assoc, List.singleton_append, List.cons_append,
    List.nil_append, List.append_cancel_left_eq, and_true, true_and]

theorem cycM3_parent_lookup (k : Nat) :
    mlookup (cycParent k ++ [((4 + 4 * k, (1, 0), 3), (1, 1)), ((6 + 4 * k, (0, 0), 3), (1, 0)),
      ((6 + 4 * k, (0, 1), 3), (0, 0))]) (6 + 4 * k, (0, 1), 3) = some (0, 0) := by
  rw [mlookup_append_none _ _ _
    (keys_ne_of_bound _ _ (cycParent_bound k) _ (by show 2 + 4 * k < 6 + 4 * k; omega))]
  rw [mlookup, if_neg (by intro he; simp only [Prod.mk.injEq] at he; omega)]
  rw [mlookup, if_neg (by intro he; simp only [Prod.mk.injEq] at he; omega)]
  rw [mlookup, if_pos rfl]

theorem cycM3_costs_lookup (k : Nat) :
    mlookup (cycCosts k ++ [((4 + 4 * k, (1, 0), 3), 3 + 4 * k), ((6 + 4 * k, (0, 0), 3), 4 + 4 * k),
      ((6 + 4 * k, (0, 1), 3), 5 + 4 * k)]) (6 + 4 * k, (0, 1), 3) = some (5 + 4 * k) := by
  rw [mlookup_append_none _ _ _
    (keys_ne_of_bound _ _ (cycCosts_bound k) _ (by show 2 + 4 * k < 6 + 4 * k; omega))]
  rw [mlookup, if_neg (by intro he; simp only [Prod.mk.injEq] at he; omega)]
  rw [mlookup, if_neg (by intro he; simp only [Prod.mk.injEq] at he; omega)]
  rw [mlookup, if_pos rfl]

theorem cycM3_costs_fresh (k : Nat) :
    mlookup (cycCosts k ++ [((4 + 4 * k, (1, 0), 3), 3 + 4 * k), ((6 + 4 * k, (0, 0), 3), 4 + 4 * k),
      ((6 + 4 * k, (0, 1), 3), 5 + 4 * k)]) (5 + 4 * k + 1, (1, 1), 3) = none := by
  rw [mlookup_append_none _ _ _
    (keys_ne_of_bound _ _ (cycCosts_bound k) _ (by show 2 + 4 * k < 5 + 4 * k + 1; omega))]
  rw [mlookup, if_neg (by intro he; simp only [Prod.mk.injEq] at he; omega)]
  rw [mlookup, if_neg (by intro he; simp only [Prod.mk.injEq] at he; omega)]
  rw [mlookup, if_neg (by intro he; simp only [Prod.mk.injEq] at he; omega)]
  rfl

theorem cycM3_parent_fresh (k : Nat) :
    mlookup (cycParent k ++ [((4 + 4 * k, (1, 0), 3), (1, 1)), ((6 + 4 * k, (0, 0), 3), (1, 0)),
      ((6 + 4 * k, (0, 1), 3), (0, 0))]) (5 + 4 * k + 1, (1, 1), 3) = none := by
  rw [mlookup_append_none _ _ _
    (keys_ne_of_bound _ _ (cycParent_bound k) _ (by show 2 + 4 * k < 5 + 4 * k + 1; omega))]
  rw [mlookup, if_neg (by intro he; simp only [Prod.mk.injEq] at he; omega)]
  rw [mlookup, if_neg (by intro he; simp only [Prod.mk.injEq] at he; omega)]
  rw [mlookup, if_neg (by intro he; simp only [Prod.mk.injEq] at he; omega)]
  rfl

theorem cycle_stepD (k : Nat) :
    stepOnce twoPuzzle (1, 1) (cycM3 k) =
      some (Node.mk (0, 1) .Right 3 (6 + 4 * k), cycState (k + 1)) := by
  unfold stepOnce cycM3 cycState
  rw [show cycCosts (k + 1) = cycCosts k ++ [((4 + 4 * k, (1, 0), 3), 3 + 4 * k),
    ((6 + 4 * k, (0, 0), 3), 4 + 4 * k), ((6 + 4 * k, (0, 1), 3), 5 + 4 * k),
    ((6 + 4 * k, (1, 1), 3), 6 + 4 * k)] from rfl]
  rw [show cycParent (k + 1) = cycParent k ++ [((4 + 4 * k, (1, 0), 3), (1, 1)),
    ((6 + 4 * k, (0, 0), 3), (1, 0)), ((6 + 4 * k, (0, 1), 3), (0, 0)),
    ((6 + 4 * k, (1, 1), 3), (0, 1))] from rfl]
  rw [show heapPop [Node.mk (0, 1) .Right 3 (6 + 4 * k)] = some (Node.mk (0, 1) .Right 3 (6 + 4 * k), []) from rfl]
  dsimp only
  rw [twoPuzzle_neighbor_01, List.foldl_cons, List.foldl_cons, List.foldl_nil]
  rw [expandNeighbor_fresh twoPuzzle (1, 1) (Node.mk (0, 1) .Right 3 (6 + 4 * k))
    (cycCosts k ++ [((4 + 4 * k, (1, 0), 3), 3 + 4 * k), ((6 + 4 * k, (0, 0), 3), 4 + 4 * k),
      ((6 + 4 * k, (0, 1), 3), 5 + 4 * k)])
    (cycParent k ++ [((4 + 4 * k, (1, 0), 3), (1, 1)), ((6 + 4 * k, (0, 0), 3), (1, 0)),
      ((6 + 4 * k, (0, 1), 3), (0, 0))])
    .Down (1, 1) (5 + 4 * k)
    (by intro he
        rw [show ckey (Node.mk (0, 1) .Right 3 (6 + 4 * k)) = (6 + 4 * k, (0, 1), 3) from rfl,
          cycM3_parent_lookup k] at he
        simp at he)
    (by intro he; simp at he)
    (by exact cycM3_costs_lookup k)
    (by rw [show ((5 + 4 * k + (puzzleIx twoPuzzle (1, 1) - 48) + hman (1, 1) (1, 1),
          ((1 : Nat), (1 : Nat)), (3 : Nat)) : CKey) = (5 + 4 * k + 1, (1, 1), 3) from rfl]
        exact cycM3_costs_fresh k)
    (by rw [show ((5 + 4 * k + (puzzleIx twoPuzzle (1, 1) - 48) + hman (1, 1) (1, 1),
          ((1 : Nat), (1 : Nat)), (3 : Nat)) : CKey) = (5 + 4 * k + 1, (1, 1), 3) from rfl]
        exact cycM3_parent_fresh k)]
  rw [show puzzleIx twoPuzzle (1, 1) - 48 = 1 from rfl,
    show hman (1, 1) (1, 1) = 0 from rfl,
    show (5 : Nat) + 4 * k + 1 + 0 = 6 + 4 * k from by omega]
  rw [expandNeighbor_blocked twoPuzzle (1, 1) (Node.mk (0, 1) .Right 3 (6 + 4 * k))
    { open_set := [Node.mk (1, 1) .Down 3 (6 + 4 * k)]
      costs := (cycCosts k ++ [((4 + 4 * k, (1, 0), 3), 3 + 4 * k), ((6 + 4 * k, (0, 0), 3), 4 + 4 * k),
        ((6 + 4 * k, (0, 1), 3), 5 + 4 * k)]) ++ [((6 + 4 * k, (1, 1), 3), 6 + 4 * k)]
      parent := (cycParent k ++ [((4 + 4 * k, (1, 0), 3), (1, 1)), ((6 + 4 * k, (0, 0), 3), (1, 0)),
        ((6 + 4 * k, (0, 1), 3), (0, 0))]) ++ [((6 + 4 * k, (1, 1), 3), (0, 1))] }
    .Left (0, 0)
    (by exact mlookup_append_some _ _ _ _ (cycM3_parent_lookup k))]
  simp only [Option.some.injEq, Prod.mk.injEq, SearchState.mk.injEq, List.cons.injEq,
    Node.mk.injEq, List.append_assoc, List.singleton_append, List.cons_append,
    List.nil_append, List.append_cancel_left_eq, and_true, true_and]
  omega

theorem cycle_loop_none (fuel k : Nat) :
    aStarLoop twoPuzzle (1, 1) fuel (cycState k) = none ∧
    aStarLoop twoPuzzle (1, 1) fuel (cycM1 k) = none ∧
    aStarLoop twoPuzzle (1, 1) fuel (cycM2 k) = none ∧
    aStarLoop twoPuzzle (1, 1) fuel (cycM3 k) = none := by
  induction fuel generalizing k with
  | zero => exact ⟨rfl, rfl, rfl, rfl⟩
  | succ n ih =>
    refine ⟨?_, ?_, ?_, ?_⟩
    · rw [aStarLoop, cycle_stepA k]
      exact (ih k).2.1
    · rw [aStarLoop, cycle_stepB k]
      exact (ih k).2.2.1
    · rw [aStarLoop, cycle_stepC k]
      exact (ih k).2.2.2
    · rw [aStarLoop, cycle_stepD k]
      exact (ih (k + 1)).1

theorem cycle_entry :
    runFrom twoPuzzle (1, 1) 3 (initState (0, 0) (1, 1)) = some (cycState 0) := rfl

theorem aStarLoop_runFrom (p : Puzzle) (goal : Pos) (m f : Nat) (st s : SearchState)
    (h : runFrom p goal m st = some s) :
    aStarLoop p goal (m + f) st = aStarLoop p goal f s := by
  induction m generalizing st with
  | zero =>
    rw [runFrom] at h
    injection h with h
    rw [Nat.zero_add, h]
  | succ n ih =>
    rw [runFrom] at h
    rw [show n + 1 + f = (n + f) + 1 from by omega, aStarLoop]
    cases hs : stepOnce p goal st with
    | none =>
      rw [hs] at h
      exact Option.noConfusion h
    | some pr =>
      obtain ⟨a, st'⟩ := pr
      rw [hs] at h
      dsimp only at h ⊢
      exact ih st' h

theorem twoPuzzle_loop_never_halts (fuel : Nat) :
    aStarLoop twoPuzzle (1, 1) fuel (initState (0, 0) (1, 1)) = none := by
  match fuel with
  | 0 => rfl
  | 1 => rfl
  | 2 => rfl
  | n + 3 =>
    rw [show n + 3 = 3 + n from by omega]
    rw [aStarLoop_runFrom twoPuzzle (1, 1) 3 n (initState (0, 0) (1, 1)) (cycState 0)
      cycle_entry]
    exact (cycle_loop_none n 0).1

/-- `a_star` on the 2×2 all-ones grid never terminates: for EVERY fuel
bound `part_one` is still running.  This pins the divergence mechanism
behind C1 with no fuel cap at all: each `costs` key embeds its own
`est_cost`, so every lap around the grid cycle mints four fresh keys,
sets `cost_updated` and re-feeds the frontier (the periodic orbit
`cycState k → cycM1 k → cycM2 k → cycM3 k → cycState (k+1)` proved in
the step lemmas above), and the loop has no early return at the goal. -/
theorem part_one_twoPuzzle_diverges (fuel : Nat) :
    part_one "11\n11" fuel = .outOfFuel := by
  unfold part_one
  rw [show puzzleFromStr "11\n11" = .ok twoPuzzle from rfl]
  dsimp only
  unfold a_star
  rw [show ((twoPuzzle.num_rows - 1, twoPuzzle.num_cols - 1) : Pos) = (1, 1) from rfl]
  rw [twoPuzzle_loop_never_halts fuel]
